import Mathlib

/-!
Verification of the RisingWave Hummock iterator family and of `DataChunk::rechunk`,
shallowly embedded from the repository sources:
`src/storage/src/hummock/iterator/concat_inner.rs`,
`src/storage/src/hummock/iterator/compact_concat_iterator.rs`,
`src/storage/src/hummock/iterator/merge_inner.rs`,
`src/storage/src/hummock/iterator/mod.rs`, and
`rust/server/src/array2/data_chunk.rs`.
Collaborator code that the shown sources call into but that is not part of the
shown sources (the versioned key comparator of `risingwave_hummock_sdk`, the
per-SST `SstableIterator`, the statistics counters) is modelled from the spec,
marked as such in the doc comments.
-/

set_option maxHeartbeats 1000000

namespace RW

/-- A byte of an encoded key, modelled as a natural number. -/
abbrev Byte := Nat

/-- An encoded Hummock key: `user_key || epoch_be_u64`; the last 8 bytes are
the big-endian epoch. -/
abbrev EncodedKey := List Byte

/-- Lexicographic comparison of byte strings, the ordering of `&[u8]` in Rust. -/
def byteCompare : List Byte → List Byte → Ordering
  | [], [] => .eq
  | [], _ :: _ => .lt
  | _ :: _, [] => .gt
  | a :: as, b :: bs =>
    match compare a b with
    | .eq => byteCompare as bs
    | .lt => .lt
    | .gt => .gt

theorem byteCompare_self (a : List Byte) : byteCompare a a = .eq := by
  induction a with
  | nil => rfl
  | cons x xs ih => simp [byteCompare, Nat.compare_eq_eq.mpr rfl, ih]

theorem byteCompare_eq_iff {a b : List Byte} : byteCompare a b = .eq ↔ a = b := by
  constructor
  · intro h
    induction a generalizing b with
    | nil => cases b with
      | nil => rfl
      | cons y ys => simp [byteCompare] at h
    | cons x xs ih =>
      cases b with
      | nil => simp [byteCompare] at h
      | cons y ys =>
        simp only [byteCompare] at h
        rcases hc : compare x y with _ | _ | _ <;> rw [hc] at h
        · exact absurd h (by simp)
        · have hx : x = y := Nat.compare_eq_eq.mp hc
          have := ih h
          rw [hx, this]
        · exact absurd h (by simp)
  · intro h; subst h; exact byteCompare_self a

theorem byteCompare_swap (a b : List Byte) :
    byteCompare a b = (byteCompare b a).swap := by
  induction a generalizing b with
  | nil => cases b <;> rfl
  | cons x xs ih =>
    cases b with
    | nil => rfl
    | cons y ys =>
      simp only [byteCompare]
      rcases hc : compare x y with _ | _ | _
      · have : compare y x = .gt := by
          rw [Nat.compare_eq_gt]; exact Nat.compare_eq_lt.mp hc
        rw [this]; rfl
      · have : compare y x = .eq := by
          rw [Nat.compare_eq_eq]; exact (Nat.compare_eq_eq.mp hc).symm
        rw [this]; exact ih ys
      · have : compare y x = .lt := by
          rw [Nat.compare_eq_lt]; exact Nat.compare_eq_gt.mp hc
        rw [this]; rfl

theorem byteCompare_trans_lt {a b c : List Byte}
    (hab : byteCompare a b = .lt) (hbc : byteCompare b c = .lt) :
    byteCompare a c = .lt := by
  induction a generalizing b c with
  | nil =>
    cases b with
    | nil => exact absurd hab (by simp [byteCompare])
    | cons y ys =>
      cases c with
      | nil => exact absurd hbc (by simp [byteCompare])
      | cons z zs => rfl
  | cons x xs ih =>
    cases b with
    | nil => exact absurd hab (by simp [byteCompare])
    | cons y ys =>
      cases c with
      | nil => exact absurd hbc (by simp [byteCompare])
      | cons z zs =>
        simp only [byteCompare] at hab hbc ⊢
        rcases hxy : compare x y with _ | _ | _ <;> rw [hxy] at hab
        · -- x < y
          rcases hyz : compare y z with _ | _ | _ <;> rw [hyz] at hbc
          · have : compare x z = .lt := by
              rw [Nat.compare_eq_lt]
              exact Nat.lt_trans (Nat.compare_eq_lt.mp hxy) (Nat.compare_eq_lt.mp hyz)
            rw [this]
          · have hy : y = z := Nat.compare_eq_eq.mp hyz
            rw [← hy, hxy]
          · exact absurd hbc (by simp)
        · -- x = y
          have hx : x = y := Nat.compare_eq_eq.mp hxy
          rcases hyz : compare y z with _ | _ | _ <;> rw [hyz] at hbc
          · rw [hx, hyz]
          · have hy : y = z := Nat.compare_eq_eq.mp hyz
            rw [hx, hy, Nat.compare_eq_eq.mpr rfl]
            exact ih hab hbc
          · exact absurd hbc (by simp)
        · exact absurd hab (by simp)

/-- Modelled from the spec: `VersionedComparator::compare_key` from
`risingwave_hummock_sdk` (a collaborator crate, not among the shown sources).
Encoded keys order by the user-key prefix (all but the last 8 bytes)
ascending lexicographically, then by the 8-byte big-endian epoch suffix
descending, so newer epochs sort first. -/
def compare_key (a b : EncodedKey) : Ordering :=
  (byteCompare (a.take (a.length - 8)) (b.take (b.length - 8))).then
    (byteCompare (b.drop (b.length - 8)) (a.drop (a.length - 8)))

theorem compare_key_self (a : EncodedKey) : compare_key a a = .eq := by
  simp [compare_key, byteCompare_self, Ordering.then]

theorem compare_key_eq_iff {a b : EncodedKey} : compare_key a b = .eq ↔ a = b := by
  constructor
  · intro h
    unfold compare_key at h
    rcases hu : byteCompare (a.take (a.length - 8)) (b.take (b.length - 8))
      with _ | _ | _ <;> rw [hu] at h <;> simp [Ordering.then] at h
    have h1 := byteCompare_eq_iff.mp hu
    have h2 := (byteCompare_eq_iff.mp h).symm
    calc a = a.take (a.length - 8) ++ a.drop (a.length - 8) := (List.take_append_drop _ _).symm
      _ = b.take (b.length - 8) ++ b.drop (b.length - 8) := by rw [h1, h2]
      _ = b := List.take_append_drop _ _
  · intro h; subst h; exact compare_key_self a

theorem compare_key_swap (a b : EncodedKey) :
    compare_key a b = (compare_key b a).swap := by
  unfold compare_key
  rw [byteCompare_swap (a.take _) (b.take _), byteCompare_swap (b.drop _) (a.drop _)]
  rcases byteCompare (b.take (b.length - 8)) (a.take (a.length - 8)) <;>
    rcases byteCompare (a.drop (a.length - 8)) (b.drop (b.length - 8)) <;> rfl

theorem compare_key_trans_lt {a b c : EncodedKey}
    (hab : compare_key a b = .lt) (hbc : compare_key b c = .lt) :
    compare_key a c = .lt := by
  unfold compare_key at hab hbc ⊢
  rcases hu1 : byteCompare (a.take (a.length - 8)) (b.take (b.length - 8))
    with _ | _ | _ <;> rw [hu1] at hab <;>
  rcases hu2 : byteCompare (b.take (b.length - 8)) (c.take (c.length - 8))
    with _ | _ | _ <;> rw [hu2] at hbc <;>
  simp only [Ordering.then] at hab hbc
  · -- user keys: a < b, b < c
    rw [byteCompare_trans_lt hu1 hu2]; rfl
  · -- a < b, b = c
    rw [byteCompare_eq_iff.mp hu2] at hu1; rw [hu1]; rfl
  · exact absurd hbc (by decide)
  · -- a = b, b < c
    rw [byteCompare_eq_iff.mp hu1, hu2]; rfl
  · -- a = b, b = c: compare epochs (reversed)
    rw [byteCompare_eq_iff.mp hu1, hu2]
    simp only [Ordering.then]
    exact byteCompare_trans_lt hbc hab
  · exact absurd hbc (by decide)
  · exact absurd hab (by decide)
  · exact absurd hab (by decide)
  · exact absurd hab (by decide)

theorem compare_key_gt_iff {a b : EncodedKey} :
    compare_key a b = .gt ↔ compare_key b a = .lt := by
  rw [compare_key_swap a b]
  rcases compare_key b a <;> simp [Ordering.swap]

theorem compare_key_total (a b : EncodedKey) :
    compare_key a b = .lt ∨ compare_key a b = .eq ∨ compare_key a b = .gt := by
  rcases compare_key a b <;> simp

/-- `a` is at most `b` under the versioned comparator. -/
def keyLe (a b : EncodedKey) : Prop := compare_key a b ≠ .gt

/-- `a` is strictly below `b` under the versioned comparator. -/
def keyLt (a b : EncodedKey) : Prop := compare_key a b = .lt

instance (a b : EncodedKey) : Decidable (keyLe a b) :=
  inferInstanceAs (Decidable (compare_key a b ≠ .gt))

instance (a b : EncodedKey) : Decidable (keyLt a b) :=
  inferInstanceAs (Decidable (compare_key a b = .lt))

theorem keyLe_iff {a b : EncodedKey} :
    keyLe a b ↔ compare_key a b = .lt ∨ a = b := by
  unfold keyLe
  constructor
  · intro h
    rcases compare_key_total a b with h1 | h1 | h1
    · exact Or.inl h1
    · exact Or.inr (compare_key_eq_iff.mp h1)
    · exact absurd h1 h
  · rintro (h | rfl)
    · rw [h]; decide
    · rw [compare_key_self]; decide

theorem keyLt_trans {a b c : EncodedKey} (h1 : keyLt a b) (h2 : keyLt b c) : keyLt a c :=
  compare_key_trans_lt h1 h2

theorem keyLt.le {a b : EncodedKey} (h : keyLt a b) : keyLe a b := by
  unfold keyLe; rw [h]; decide

theorem keyLe.refl (a : EncodedKey) : keyLe a a := by
  unfold keyLe; rw [compare_key_self]; decide

theorem keyLt_of_le_of_lt {a b c : EncodedKey} (h1 : keyLe a b) (h2 : keyLt b c) :
    keyLt a c := by
  rcases keyLe_iff.mp h1 with h | rfl
  · exact keyLt_trans h h2
  · exact h2

theorem keyLt_of_lt_of_le {a b c : EncodedKey} (h1 : keyLt a b) (h2 : keyLe b c) :
    keyLt a c := by
  rcases keyLe_iff.mp h2 with h | rfl
  · exact keyLt_trans h1 h
  · exact h1

theorem keyLe.trans {a b c : EncodedKey} (h1 : keyLe a b) (h2 : keyLe b c) : keyLe a c := by
  rcases keyLe_iff.mp h1 with h | rfl
  · exact (keyLt_of_lt_of_le h h2).le
  · exact h2

theorem keyLt.ne {a b : EncodedKey} (h : keyLt a b) : a ≠ b := by
  intro hab; subst hab
  rw [keyLt, compare_key_self] at h; cases h

theorem keyLt_irrefl (a : EncodedKey) : ¬ keyLt a a := fun h => h.ne rfl

theorem keyLt_asymm {a b : EncodedKey} (h : keyLt a b) : ¬ keyLt b a := by
  intro h2
  exact keyLt_irrefl a (keyLt_trans h h2)

theorem not_keyLe {a b : EncodedKey} (h : ¬ keyLe a b) : keyLt b a :=
  compare_key_gt_iff.mp (not_not.mp h)

theorem keyLe_of_not_lt {a b : EncodedKey} (h : ¬ keyLt a b) : keyLe b a := by
  rcases compare_key_total a b with h1 | h1 | h1
  · exact absurd h1 h
  · rw [compare_key_eq_iff.mp h1]; exact keyLe.refl _
  · exact keyLt.le (compare_key_gt_iff.mp h1)

/-! ### Values and SSTs -/

/-- A Hummock value view: `Put(bytes)` or `Delete`. -/
inductive HValue where
  | put (v : List Byte)
  | delete
deriving DecidableEq

/-- A key range `{left, right}` of an `SstableInfo` descriptor
(`risingwave_pb::hummock::KeyRange`; the `inf` flag is not consulted by the
concat iterators shown and is omitted). -/
structure KeyRange where
  left : EncodedKey
  right : EncodedKey
deriving DecidableEq

/-- An SST: the `SstableInfo` descriptor together with the entries the backing
table holds (the table data lives behind the `SstableStore` collaborator; the
entries are what an `SstableIterator` over the table would produce, in forward
order).  `cost` models the local statistic counters a child iterator over this
table accrues (block loads, bytes read, ...); their exact values are opaque
here, only their aggregation is modelled. -/
structure Sstable where
  key_range : KeyRange
  entries : List (EncodedKey × HValue)
  cost : Nat
deriving DecidableEq

/-- Keys of the entries of an SST. -/
def Sstable.keys (t : Sstable) : List EncodedKey := t.entries.map (·.1)

/-- Rust `slice::partition_point(pred)`: the index of the partition point of a
slice partitioned under `pred` (all elements satisfying `pred` first).  Rust
computes it by binary search; on a partitioned slice this equals the length of
the longest prefix satisfying `pred`, which is the definition used here. -/
def partitionPoint (p : α → Bool) (l : List α) : Nat := (l.takeWhile p).length

theorem partitionPoint_le_length (p : α → Bool) (l : List α) :
    partitionPoint p l ≤ l.length := by
  unfold partitionPoint
  induction l with
  | nil => simp
  | cons x xs ih =>
    by_cases h : p x
    · simpa [List.takeWhile, h] using ih
    · simp [List.takeWhile, h]

/-! ### The per-SST iterator (collaborator, modelled from the spec)

Modelled from the spec: `SstableIterator` (`C4` of the spec; its source is not
among the shown files).  Over one SST it supports `rewind` (position at entry
0), `seek(k)` (position at the smallest entry whose key is `≥ k` under the
versioned comparator, forward direction), and `next` (advance by one entry);
`is_valid` holds while the position is inside the table.  `stats` carries the
local statistic counters the iterator has accrued, drained by
`collect_local_statistic`. -/

structure SstableIterator where
  entries : List (EncodedKey × HValue)
  pos : Nat
  stats : Nat
deriving DecidableEq

namespace SstableIterator

/-- Modelled from the spec: `SstableIterator::create` over a loaded table. -/
def create (t : Sstable) : SstableIterator := ⟨t.entries, 0, t.cost⟩

/-- Modelled from the spec: positioned on an entry of the table. -/
def is_valid (it : SstableIterator) : Bool := it.pos < it.entries.length

/-- Current key, `none` when the iterator is invalid (the source panics). -/
def key? (it : SstableIterator) : Option EncodedKey :=
  (it.entries.get? it.pos).map (·.1)

/-- Current value, `none` when the iterator is invalid (the source panics). -/
def value? (it : SstableIterator) : Option HValue :=
  (it.entries.get? it.pos).map (·.2)

/-- Modelled from the spec: `rewind` positions at entry 0. -/
def rewind (it : SstableIterator) : SstableIterator := { it with pos := 0 }

/-- Modelled from the spec: `seek(k)` positions at the smallest entry with
key `≥ k` (forward direction). -/
def seek (it : SstableIterator) (k : EncodedKey) : SstableIterator :=
  { it with pos := partitionPoint (fun e => compare_key e.1 k == .lt) it.entries }

/-- Modelled from the spec: `next` advances by one entry. -/
def next (it : SstableIterator) : SstableIterator := { it with pos := it.pos + 1 }

/-- Drain the accrued local statistics into a sink. -/
def collect_local_statistic (it : SstableIterator) (sink : Nat) : Nat := sink + it.stats

end SstableIterator

/-! ### The concat iterator (`concat_inner.rs`) -/

/-- Direction marker (`DirectionEnum` in `mod.rs`). -/
inductive DirectionEnum where
  | Forward
  | Backward
deriving DecidableEq

/-- State of `ConcatIteratorInner` (`concat_inner.rs`): the optional active
child iterator, the current table index, the run of non-overlapping tables,
and the accumulated local statistics.  The forward variant is modelled in
full; the direction only enters `seek`, via `seekTableIdx`. -/
structure ConcatIteratorInner where
  sstable_iter : Option SstableIterator
  cur_idx : Nat
  tables : List Sstable
  stats : Nat
deriving DecidableEq

namespace ConcatIteratorInner

/-- `ConcatIteratorInner::new`: no active child, `cur_idx = 0`, zero stats. -/
def new (tables : List Sstable) : ConcatIteratorInner :=
  { sstable_iter := none, cur_idx := 0, tables := tables, stats := 0 }

/-- Local statistics of the outgoing child, drained on a child swap. -/
def drained (st : ConcatIteratorInner) : Nat :=
  match st.sstable_iter with
  | some it => it.stats
  | none => 0

/-- `ConcatIteratorInner::seek_idx(idx, seek_key)`: out of range drops the
child (draining its statistics); otherwise loads table `idx`, seeks or
rewinds a fresh child over it, drains the outgoing child's statistics, and
installs the new child with `cur_idx := idx`. -/
def seek_idx (st : ConcatIteratorInner) (idx : Nat) (seek_key : Option EncodedKey) :
    ConcatIteratorInner :=
  match st.tables.get? idx with
  | none =>
    { st with sstable_iter := none, stats := st.stats + drained st }
  | some t =>
    let it0 := SstableIterator.create t
    let it := match seek_key with
      | some k => it0.seek k
      | none => it0.rewind
    { st with sstable_iter := some it, cur_idx := idx, stats := st.stats + drained st }

/-- `is_valid`: `self.sstable_iter.as_ref().map_or(false, |i| i.is_valid())`. -/
def is_valid (st : ConcatIteratorInner) : Bool :=
  match st.sstable_iter with
  | some it => it.is_valid
  | none => false

/-- Current key; `none` models the panics of `key()` on a missing or invalid
child iterator. -/
def key? (st : ConcatIteratorInner) : Option EncodedKey :=
  match st.sstable_iter with
  | some it => it.key?
  | none => none

/-- Current value; `none` models the panics of `value()`. -/
def value? (st : ConcatIteratorInner) : Option HValue :=
  match st.sstable_iter with
  | some it => it.value?
  | none => none

/-- `rewind`: `seek_idx(0, None)`. -/
def rewind (st : ConcatIteratorInner) : ConcatIteratorInner := st.seek_idx 0 none

/-- The table index chosen by `seek`:
`tables.partition_point(pred).saturating_sub(1)` where `pred` compares the
seek key with the table's `key_range.left` for a forward iterator
(`ord == Less || ord == Equal`) and with `key_range.right` for a backward
iterator (`ord == Greater || ord == Equal`). -/
def seekTableIdx (dir : DirectionEnum) (tables : List Sstable) (key : EncodedKey) : Nat :=
  (partitionPoint (fun table =>
    match dir with
    | .Forward =>
      let ord := compare_key table.key_range.left key
      ord == .lt || ord == .eq
    | .Backward =>
      let ord := compare_key table.key_range.right key
      ord == .gt || ord == .eq) tables) - 1

/-- `seek(key)` (forward): pick `table_idx` by `seekTableIdx`, delegate
`seek_idx(table_idx, Some(key))`, and when still invalid fall back to
`seek_idx(table_idx + 1, None)`. -/
def seek (st : ConcatIteratorInner) (key : EncodedKey) : ConcatIteratorInner :=
  let table_idx := seekTableIdx .Forward st.tables key
  let st1 := st.seek_idx table_idx (some key)
  if st1.is_valid then st1 else st1.seek_idx (table_idx + 1) none

/-- `next` = `poll_next` then, on `Pending`, `await_next`: advance the child;
if the child leaves its table, `seek_idx(cur_idx + 1, None)` rewinds the next
table.  On a missing child the source panics (`expect("no table iter")`);
that state is never reached from a valid iterator and is modelled as the
identity. -/
def next (st : ConcatIteratorInner) : ConcatIteratorInner :=
  match st.sstable_iter with
  | none => st
  | some it =>
    let it2 := it.next
    if it2.is_valid then { st with sstable_iter := some it2 }
    else seek_idx { st with sstable_iter := some it2 } (st.cur_idx + 1) none

/-- `collect_local_statistic(sink)`: `stats.add(&self.stats)`. -/
def collect_local_statistic (st : ConcatIteratorInner) (sink : Nat) : Nat :=
  sink + st.stats

/-- Keys emitted by repeatedly calling `next` while valid (fuel-bounded; any
fuel at least the total entry count is enough). -/
def emit (st : ConcatIteratorInner) : Nat → List EncodedKey
  | 0 => []
  | fuel + 1 =>
    match st.key? with
    | none => []
    | some k => k :: emit st.next fuel

/-- The state after driving `next` while valid (fuel-bounded). -/
def run (st : ConcatIteratorInner) : Nat → ConcatIteratorInner
  | 0 => st
  | fuel + 1 => if st.is_valid then run st.next fuel else st

end ConcatIteratorInner

/-! ### The pending-stage machine of the concat iterator (`concat_inner.rs`) -/

/-- `ConcatIteratorPendingStage`: which pending operation a `Poll::Pending`
from `poll_next` recorded.  `AwaitNext` is the "inner" sub-stage (the child
itself returned `Pending`); `AwaitSeekIdx` is the "load next SST" sub-stage
(the child exhausted its table). -/
inductive ConcatIteratorPendingStage where
  | None
  | AwaitNext
  | AwaitSeekIdx
deriving DecidableEq

/-- Outcome of the child's synchronous `poll_next`. -/
inductive ChildPoll where
  | ready_ok (validAfter : Bool)
  | ready_err (e : Nat)
  | pending
deriving DecidableEq

/-- Outcome of the concat iterator's own `poll_next`. -/
inductive PollOutcome where
  | ready_ok
  | ready_err (e : Nat)
  | pending
deriving DecidableEq

/-- Outcome of the child's `await_next`. -/
inductive ChildAwait where
  | ok (validAfter : Bool)
  | err (e : Nat)
deriving DecidableEq

/-- What one `await_next` of the concat iterator does: its result, the
`seek_idx(target, None)` call it performs (if any), and the stage it leaves
behind. -/
structure AwaitStep where
  result : Except Nat Unit
  seekIdxTarget : Option Nat
  stageAfter : ConcatIteratorPendingStage

/-- `ConcatIteratorInner::poll_next`, as a pure function of the child's poll
outcome (it performs no I/O of its own: it only delegates to the child and
records a pending stage).  Returns the concat iterator's poll outcome and the
recorded stage. -/
def concat_poll_next (child : ChildPoll) : PollOutcome × ConcatIteratorPendingStage :=
  match child with
  | .ready_err e => (.ready_err e, .None)
  | .ready_ok validAfter =>
    if validAfter then (.ready_ok, .None)
    else (.pending, .AwaitSeekIdx)
  | .pending => (.pending, .AwaitNext)

/-- `ConcatIteratorInner::await_next`, as a pure function of the recorded
stage, the current table index, and the child's `await_next` outcome (only
consulted in the `AwaitNext` stage). -/
def concat_await_next (stage : ConcatIteratorPendingStage) (cur_idx : Nat)
    (child : ChildAwait) : AwaitStep :=
  match stage with
  | .None => ⟨.ok (), none, .None⟩
  | .AwaitNext =>
    match child with
    | .ok validAfter =>
      if validAfter then ⟨.ok (), none, .None⟩
      else ⟨.ok (), some (cur_idx + 1), .None⟩
    | .err e => ⟨.error e, none, .None⟩
  | .AwaitSeekIdx => ⟨.ok (), some (cur_idx + 1), .None⟩

/-! ### The merge iterator (`merge_inner.rs`) -/

/-- A child node of a merge iterator (`Node` in `merge_inner.rs`).  The boxed
child `HummockIterator` is modelled as a sorted in-memory stream with a
current position; `order` is the `extra_order_info` index (meaningful only
for the ordered variant, where children are enumerated at construction).
`failAt`/`errCode` inject the error model: the child's `next` fails with
`errCode` when called at position `failAt`. -/
structure Node where
  entries : List (EncodedKey × HValue)
  pos : Nat
  order : Nat
  failAt : Option Nat
  errCode : Nat
deriving DecidableEq

namespace Node

/-- The child iterator is positioned on an entry. -/
def valid (n : Node) : Bool := n.pos < n.entries.length

/-- Current key of the child; when the child is invalid the source would
panic, here the default `[]` stands in (never consulted on heap nodes, which
are all valid). -/
def key (n : Node) : EncodedKey := ((n.entries.get? n.pos).map (·.1)).getD []

/-- Current key as an option (`none` when invalid). -/
def key? (n : Node) : Option EncodedKey := (n.entries.get? n.pos).map (·.1)

/-- Current value as an option (`none` when invalid). -/
def value? (n : Node) : Option HValue := (n.entries.get? n.pos).map (·.2)

/-- The child's `next`: errors at the injected failure position, otherwise
advances by one entry. -/
def next (n : Node) : Except Nat Node :=
  if n.failAt = some n.pos then .error n.errCode
  else .ok { n with pos := n.pos + 1 }

/-- The child's `rewind`: back to the first entry. -/
def rewind (n : Node) : Node := { n with pos := 0 }

/-- The child's `seek` (forward): to the smallest entry with key `≥ k`. -/
def seek (n : Node) (k : EncodedKey) : Node :=
  { n with pos := partitionPoint (fun e => compare_key e.1 k == .lt) n.entries }

end Node

/-- `PartialOrd for Node<'_, D, UnorderedNodeExtra>`: only the keys compare,
reversed so that the Rust max-heap behaves as a min-heap under the versioned
comparator (and un-reversed for the backward direction). -/
def unordered_cmp (dir : DirectionEnum) (a b : Node) : Ordering :=
  match dir with
  | .Forward => compare_key b.key a.key
  | .Backward => compare_key a.key b.key

/-- `PartialOrd for Node<'_, D, OrderedNodeExtra>`: keys compare as in the
unordered variant, and `extra_order_info` breaks ties. -/
def ordered_cmp (dir : DirectionEnum) (a b : Node) : Ordering :=
  match dir with
  | .Forward => (compare_key b.key a.key).then (compare b.order a.order)
  | .Backward => (compare_key a.key b.key).then (compare a.order b.order)

/-- The element Rust's `BinaryHeap::peek` would return: a maximal element of
the heap under `cmp`, together with its index.  Among elements comparing
equal (possible only in the unordered variant) Rust's heap order is
unspecified; this model picks the leftmost maximal element. -/
def heapTop? (cmp : Node → Node → Ordering) : List Node → Option (Nat × Node)
  | [] => none
  | n :: rest =>
    match heapTop? cmp rest with
    | none => some (0, n)
    | some (i, m) => if cmp m n == .gt then some (i + 1, m) else some (0, n)

/-- State of `MergeIteratorInner`: the invalid-or-uninitialized children, the
heap, and the dedup buffer of the ordered variant.  (The `stats` field of the
source holds an observability histogram and is not modelled.) -/
structure MergeIteratorInner where
  unused_iters : List Node
  heap : List Node
  last_table_key : List Byte
deriving DecidableEq

namespace MergeIteratorInner

/-- `OrderedMergeIteratorInner::new`: children enumerated with their index as
`extra_order_info`, all initially in `unused_iters`, empty heap. -/
def newOrdered (children : List (List (EncodedKey × HValue) × Option Nat × Nat)) :
    MergeIteratorInner :=
  { unused_iters := (children.enum).map fun ic =>
      { entries := ic.2.1, pos := 0, order := ic.1, failAt := ic.2.2.1, errCode := ic.2.2.2 }
    heap := []
    last_table_key := [] }

/-- `UnorderedMergeIteratorInner::new`: like `newOrdered` but without order
info (the `order` field is set to 0 and never consulted). -/
def newUnordered (children : List (List (EncodedKey × HValue) × Option Nat × Nat)) :
    MergeIteratorInner :=
  { unused_iters := children.map fun c =>
      { entries := c.1, pos := 0, order := 0, failAt := c.2.1, errCode := c.2.2 }
    heap := []
    last_table_key := [] }

/-- `reset_heap`: move all heap nodes to the unused list. -/
def reset_heap (st : MergeIteratorInner) : MergeIteratorInner :=
  { st with unused_iters := st.unused_iters ++ st.heap, heap := [] }

/-- `build_heap`: move the now-valid unused nodes into the heap. -/
def build_heap (st : MergeIteratorInner) : MergeIteratorInner :=
  { st with heap := st.unused_iters.filter Node.valid
            unused_iters := st.unused_iters.filter fun n => ! n.valid }

/-- `rewind`: reset the heap, rewind every child, rebuild the heap from the
valid ones. -/
def rewind (st : MergeIteratorInner) : MergeIteratorInner :=
  let st1 := st.reset_heap
  build_heap { st1 with unused_iters := st1.unused_iters.map Node.rewind }

/-- `seek(key)`: reset the heap, seek every child, rebuild the heap. -/
def seek (st : MergeIteratorInner) (key : EncodedKey) : MergeIteratorInner :=
  let st1 := st.reset_heap
  build_heap { st1 with unused_iters := st1.unused_iters.map (Node.seek · key) }

/-- `is_valid`: `self.heap.peek().map_or(false, |n| n.iter.is_valid())`. -/
def is_valid (cmp : Node → Node → Ordering) (st : MergeIteratorInner) : Bool :=
  match heapTop? cmp st.heap with
  | none => false
  | some im => im.2.valid

/-- Current key of the merge (`none` models the panic on an empty heap). -/
def key? (cmp : Node → Node → Ordering) (st : MergeIteratorInner) : Option EncodedKey :=
  match heapTop? cmp st.heap with
  | none => none
  | some im => im.2.key?

/-- Current value of the merge (`none` models the panic on an empty heap). -/
def value? (cmp : Node → Node → Ordering) (st : MergeIteratorInner) : Option HValue :=
  match heapTop? cmp st.heap with
  | none => none
  | some im => im.2.value?

/-- `UnorderedMergeIteratorInner::next_inner`: advance the top; on a child
error pop it and clear the heap, re-raising the error; on exhaustion move the
top to the unused list; otherwise the peek-handle's drop reorders the heap.
On an empty heap the source panics (`expect("no inner iter")`); that call is
a contract violation and is modelled as a no-op. -/
def nextUnordered (dir : DirectionEnum) (st : MergeIteratorInner) :
    Except Nat Unit × MergeIteratorInner :=
  match heapTop? (unordered_cmp dir) st.heap with
  | none => (.ok (), st)
  | some (i, node) =>
    match node.next with
    | .error e => (.error e, { st with heap := [] })
    | .ok n2 =>
      if n2.valid then (.ok (), { st with heap := st.heap.set i n2 })
      else (.ok (), { st with heap := st.heap.eraseIdx i
                              unused_iters := st.unused_iters ++ [n2] })

/-- Fuel sufficient for the dedup loop of the ordered `next_inner`: every
iteration either advances a child inside its entries or pops a child. -/
def heapMeasure (heap : List Node) : Nat :=
  (heap.map fun n => n.entries.length - n.pos + 1).sum

/-- The dedup loop of `OrderedMergeIteratorInner::next_inner`: while the heap
top's key is byte-equal to `top_key` (the source compares encoded keys with
`==`, not through the comparator), advance it; pop it to the unused list when
it exhausts; on a child error pop it, clear the heap and re-raise. -/
def orderedLoop (dir : DirectionEnum) :
    Nat → MergeIteratorInner → List Byte → Except Nat Unit × MergeIteratorInner
  | 0, st, _ => (.ok (), st)
  | fuel + 1, st, top_key =>
    match heapTop? (ordered_cmp dir) st.heap with
    | none => (.ok (), st)
    | some (i, node) =>
      if node.key == top_key then
        match node.next with
        | .error e => (.error e, { st with heap := [] })
        | .ok n2 =>
          if n2.valid then
            orderedLoop dir fuel { st with heap := st.heap.set i n2 } top_key
          else
            orderedLoop dir fuel
              { st with heap := st.heap.eraseIdx i
                        unused_iters := st.unused_iters ++ [n2] } top_key
      else (.ok (), st)

/-- `OrderedMergeIteratorInner::next_inner`: record the heap top's key into
`last_table_key`, then run the dedup loop.  On an empty heap the source
panics; modelled as a no-op. -/
def nextOrdered (dir : DirectionEnum) (st : MergeIteratorInner) :
    Except Nat Unit × MergeIteratorInner :=
  match heapTop? (ordered_cmp dir) st.heap with
  | none => (.ok (), st)
  | some im =>
    let tk := im.2.key
    orderedLoop dir (heapMeasure st.heap) { st with last_table_key := tk } tk

/-- Keys emitted by the unordered merge driven by `next` while valid
(fuel-bounded; error-free children assumed by the theorems that use it). -/
def emitUnordered (dir : DirectionEnum) (st : MergeIteratorInner) :
    Nat → List EncodedKey
  | 0 => []
  | fuel + 1 =>
    match key? (unordered_cmp dir) st with
    | none => []
    | some k => k :: emitUnordered dir (nextUnordered dir st).2 fuel

end MergeIteratorInner

/-! ### The compaction-facing concat iterator (`compact_concat_iterator.rs`) -/

/-- State of `ConcatSstableIterator`: like `ConcatIteratorInner` but
forward-only, with a boolean `is_pending` instead of the staged enum. -/
structure ConcatSstableIterator where
  sstable_iter : Option SstableIterator
  cur_idx : Nat
  tables : List Sstable
  stats : Nat
  is_pending : Bool
deriving DecidableEq

namespace ConcatSstableIterator

/-- `ConcatSstableIterator::new`. -/
def new (tables : List Sstable) : ConcatSstableIterator :=
  { sstable_iter := none, cur_idx := 0, tables := tables, stats := 0,
    is_pending := false }

/-- `is_valid`: `self.sstable_iter.as_ref().map_or(false, |i| i.is_valid())`. -/
def is_valid (st : ConcatSstableIterator) : Bool :=
  match st.sstable_iter with
  | some it => it.is_valid
  | none => false

/-- Current key; `none` models the panic of `key()` without a child. -/
def key? (st : ConcatSstableIterator) : Option EncodedKey :=
  match st.sstable_iter with
  | some it => it.key?
  | none => none

/-- The table index chosen by `ConcatSstableIterator::seek`: the same
partition point over `key_range.left` as the forward `ConcatIteratorInner`. -/
def seekTableIdx (tables : List Sstable) (key : EncodedKey) : Nat :=
  (partitionPoint (fun table =>
    let ord := compare_key table.key_range.left key
    ord == .lt || ord == .eq) tables) - 1

end ConcatSstableIterator

/-! ### `DataChunk` and `rechunk` (`rust/server/src/array2/data_chunk.rs`) -/

/-- A `DataChunk`: columns (each an array of cells) and a cardinality.  The
cell type is a parameter; the source's columns are dynamically typed
arrays. -/
structure DataChunk (α : Type) where
  columns : List (List α)
  cardinality : Nat
deriving DecidableEq

namespace DataChunk

/-- Modelled from the spec: `ArrayImpl::get_continuous_sub_array(start_idx,
end_idx)`, the inclusive slice `[start_idx, end_idx]` of an array (the array
implementation is a collaborator; `DataChunk::rechunk` and its test pin this
meaning down). -/
def get_continuous_sub_array (l : List α) (start_idx end_idx : Nat) : List α :=
  (l.drop start_idx).take (end_idx + 1 - start_idx)

/-- `DataChunk::rechunk(chunks, each_size_limit)`.  `none` models the panics
(`assert!(each_size_limit > 0)`, `assert!(!chunks[0].columns.is_empty())`,
and the `unwrap` on `column_at` when a chunk lacks a column). -/
def rechunk (chunks : List (DataChunk α)) (each_size_limit : Nat) :
    Option (List (DataChunk α)) := do
  guard (each_size_limit > 0)
  match chunks with
  | [] => pure []
  | c0 :: _ => do
    guard (! c0.columns.isEmpty)
    let total_cardinality := (chunks.map (·.cardinality)).sum
    let num_chunks := (total_cardinality + each_size_limit - 1) / each_size_limit
    let new_arrays ← (List.range c0.columns.length).mapM fun col_idx =>
      (chunks.mapM fun (c : DataChunk α) => c.columns.get? col_idx).map List.flatten
    let first ← new_arrays.get? 0
    pure <| (List.range num_chunks).map fun chunk_idx =>
      let start_idx := each_size_limit * chunk_idx
      let end_idx := min (each_size_limit * (chunk_idx + 1) - 1) (first.length - 1)
      { columns := new_arrays.map fun a => get_continuous_sub_array a start_idx end_idx
        cardinality := end_idx - start_idx + 1 }

end DataChunk

/-! ### Generic facts about `partitionPoint` -/

theorem partitionPoint_get_of_lt (p : α → Bool) :
    ∀ (l : List α) {i : Nat}, i < partitionPoint p l →
      ∃ x, l.get? i = some x ∧ p x = true := by
  intro l
  induction l with
  | nil => intro i h; simp [partitionPoint, List.takeWhile] at h
  | cons x xs ih =>
    intro i h
    rcases hx : p x with _ | _ <;>
      simp only [partitionPoint, List.takeWhile_cons, hx] at h
    · simp at h
    · cases i with
      | zero => exact ⟨x, rfl, hx⟩
      | succ j =>
        simp only [if_true, List.length_cons] at h
        exact ih (Nat.lt_of_succ_lt_succ (by simpa using h))

theorem partitionPoint_get_self_false (p : α → Bool) :
    ∀ (l : List α), partitionPoint p l < l.length →
      ∃ x, l.get? (partitionPoint p l) = some x ∧ p x = false := by
  intro l
  induction l with
  | nil => intro h; simp [partitionPoint, List.takeWhile] at h
  | cons x xs ih =>
    intro h
    rcases hx : p x with _ | _ <;>
      simp only [partitionPoint, List.takeWhile_cons, hx, if_true, if_false,
        List.length_cons, List.length_nil] at h ⊢
    · exact ⟨x, rfl, hx⟩
    · obtain ⟨y, hy, hpy⟩ := ih (Nat.lt_of_succ_lt_succ (by simpa using h))
      exact ⟨y, by simpa using hy, hpy⟩

theorem partitionPoint_all (p : α → Bool) :
    ∀ (l : List α), partitionPoint p l = l.length → ∀ x ∈ l, p x = true := by
  intro l
  induction l with
  | nil => intro _ x hx; cases hx
  | cons y ys ih =>
    intro h x hx
    rcases hy : p y with _ | _ <;>
      simp [partitionPoint, List.takeWhile_cons, hy] at h
    rcases List.mem_cons.mp hx with rfl | hx
    · exact hy
    · exact ih (by simpa [partitionPoint] using h) x hx

/-- On a partitioned list with at least one satisfying element,
`partitionPoint - 1` is the index of the last satisfying element. -/
theorem partitionPoint_last (p : α → Bool) (l : List α)
    (hpart : ∀ i j xi xj, i ≤ j → l.get? i = some xi → l.get? j = some xj →
      p xj = true → p xi = true) :
    (∀ j xj, l.get? j = some xj → p xj = true →
      (∃ xn, l.get? (partitionPoint p l - 1) = some xn ∧ p xn = true) ∧
      j ≤ partitionPoint p l - 1) ∧
    ((∀ j xj, l.get? j = some xj → p xj = false) → partitionPoint p l - 1 = 0) := by
  constructor
  · intro j xj hj hpj
    have hjlen : j < l.length := by
      rcases Nat.lt_or_ge j l.length with h | h
      · exact h
      · rw [List.get?_eq_none.mpr h] at hj; cases hj
    -- any satisfying index lies strictly below the partition point
    have hjlt : j < partitionPoint p l := by
      by_contra hge
      push_neg at hge
      have hlt : partitionPoint p l < l.length := Nat.lt_of_le_of_lt hge hjlen
      obtain ⟨y, hy, hpy⟩ := partitionPoint_get_self_false p l hlt
      have := hpart (partitionPoint p l) j y xj hge hy hj hpj
      rw [this] at hpy; cases hpy
    have hpos : 1 ≤ partitionPoint p l := Nat.lt_of_le_of_lt (Nat.zero_le j) hjlt
    refine ⟨?_, by omega⟩
    exact partitionPoint_get_of_lt p l (by omega)
  · intro hnone
    rcases Nat.eq_zero_or_pos (partitionPoint p l) with h | h
    · rw [h]
    · obtain ⟨x, hx, hpx⟩ := partitionPoint_get_of_lt p l h
      rw [hnone 0 x hx] at hpx; cases hpx

/-- Bridging the source's `ord == Less || ord == Equal` test to `keyLe`. -/
theorem lt_or_eq_iff_keyLe (a b : EncodedKey) :
    ((compare_key a b == .lt) || (compare_key a b == .eq)) = true ↔ keyLe a b := by
  unfold keyLe
  rcases h : compare_key a b <;> decide

/-- Bridging the source's `ord == Greater || ord == Equal` test to `keyLe`
with the arguments reversed. -/
theorem gt_or_eq_iff_keyLe (a b : EncodedKey) :
    ((compare_key a b == .gt) || (compare_key a b == .eq)) = true ↔ keyLe b a := by
  unfold keyLe
  rw [compare_key_swap b a]
  rcases h : compare_key a b <;> decide

/-- Positions related by a reflexive transitive chain are related. -/
theorem chain_rel_of_get {α : Type} {R : α → α → Prop} (htrans : Transitive R)
    (hrefl : Reflexive R) {l : List α} (h : l.Chain' R) {i j : Nat} (hij : i ≤ j)
    {a b : α} (ha : l.get? i = some a) (hb : l.get? j = some b) : R a b := by
  letI : IsTrans α R := ⟨htrans⟩
  have hp := List.chain'_iff_pairwise.mp h
  rcases Nat.lt_or_ge i j with hlt | hge
  · obtain ⟨hi, rfl⟩ := List.get?_eq_some.mp ha
    obtain ⟨hj, rfl⟩ := List.get?_eq_some.mp hb
    exact List.pairwise_iff_get.mp hp ⟨i, hi⟩ ⟨j, hj⟩ hlt
  · have hij2 : i = j := Nat.le_antisymm hij hge
    subst hij2; rw [ha] at hb
    cases hb; exact hrefl a

/-! ### Concrete scenario material -/

/-- `user_key || epoch_be_u64` with a one-byte epoch payload. -/
def withEpoch (u : List Byte) (e : Byte) : EncodedKey := u ++ [0, 0, 0, 0, 0, 0, 0, e]

def cxKeyA : EncodedKey := withEpoch [97] 1
def cxKeyC : EncodedKey := withEpoch [99] 1
def cxKeyM : EncodedKey := withEpoch [109] 1
def cxKeyN : EncodedKey := withEpoch [110] 1

/-- The seek key of the `C1` counterexample: strictly inside the second
table's key range. -/
def cxSeekKey : EncodedKey := withEpoch [109, 122] 1

def cxTabA : Sstable := ⟨⟨cxKeyA, cxKeyC⟩, [(cxKeyA, .put [1]), (cxKeyC, .put [2])], 3⟩
def cxTabB : Sstable := ⟨⟨cxKeyM, cxKeyN⟩, [(cxKeyM, .put [4]), (cxKeyN, .put [5])], 7⟩

/-- The table-selection rule exactly as claim `C1` words it: the boundary
compared against the seek key is the RIGHT end of each key range for a
forward iterator and the LEFT end for a backward one. -/
def claimSeekTableIdx (dir : DirectionEnum) (tables : List Sstable) (key : EncodedKey) : Nat :=
  (partitionPoint (fun table =>
    match dir with
    | .Forward =>
      let ord := compare_key table.key_range.right key
      ord == .lt || ord == .eq
    | .Backward =>
      let ord := compare_key table.key_range.left key
      ord == .gt || ord == .eq) tables) - 1

/-- Concat `seek` with the claim's boundary rule substituted for the code's. -/
def claimConcatSeek (st : ConcatIteratorInner) (key : EncodedKey) : ConcatIteratorInner :=
  let table_idx := claimSeekTableIdx .Forward st.tables key
  let st1 := st.seek_idx table_idx (some key)
  if st1.is_valid then st1 else st1.seek_idx (table_idx + 1) none

/-! ### C10 -/

/-- C10: on every iterator of the family — concat, compaction concat, and both
merge flavors in either direction — `is_valid()` is total and returns `false`
before any `rewind` or `seek` (no active child in a concat iterator, empty
heap in a merge iterator), while `key()` and `value()` have no answer in that
state (the source panics, modelled by `none`). -/
theorem is_valid_false_uninitialized :
    ∀ (ts : List Sstable)
      (cs : List (List (EncodedKey × HValue) × Option Nat × Nat))
      (dir : DirectionEnum),
      (ConcatIteratorInner.new ts).is_valid = false ∧
      (ConcatIteratorInner.new ts).key? = none ∧
      (ConcatIteratorInner.new ts).value? = none ∧
      (ConcatSstableIterator.new ts).is_valid = false ∧
      (ConcatSstableIterator.new ts).key? = none ∧
      (MergeIteratorInner.newOrdered cs).is_valid (ordered_cmp dir) = false ∧
      (MergeIteratorInner.newOrdered cs).key? (ordered_cmp dir) = none ∧
      (MergeIteratorInner.newOrdered cs).value? (ordered_cmp dir) = none ∧
      (MergeIteratorInner.newUnordered cs).is_valid (unordered_cmp dir) = false ∧
      (MergeIteratorInner.newUnordered cs).key? (unordered_cmp dir) = none ∧
      (MergeIteratorInner.newUnordered cs).value? (unordered_cmp dir) = none := by
  intro ts cs dir
  exact ⟨rfl, rfl, rfl, rfl, rfl, rfl, rfl, rfl, rfl, rfl, rfl⟩

/-! ### C4 -/

/-- C4: the concat iterator's `poll_next` only dispatches on the child's poll
outcome — a child `Ready(Err)` is returned `Ready(Err)`, `Ready(Ok)` with a
still-valid child is `Ready(Ok)`, `Ready(Ok)` with an exhausted child records
the "load next SST" sub-stage (`AwaitSeekIdx`) and returns `Pending`, and a
child `Pending` records the "inner" sub-stage (`AwaitNext`) and returns
`Pending` — and `await_next` dispatches on the recorded sub-stage: for
`AwaitNext` it awaits the child and rewinds table `cur_idx + 1` exactly when
the child is then exhausted, for `AwaitSeekIdx` it rewinds table
`cur_idx + 1`, and in every case it clears the recorded sub-stage. -/
theorem concat_poll_await_protocol :
    ∀ (e cur_idx : Nat) (child : ChildAwait) (stage : ConcatIteratorPendingStage),
      concat_poll_next (.ready_err e) = (.ready_err e, .None) ∧
      concat_poll_next (.ready_ok true) = (.ready_ok, .None) ∧
      concat_poll_next (.ready_ok false) = (.pending, .AwaitSeekIdx) ∧
      concat_poll_next .pending = (.pending, .AwaitNext) ∧
      concat_await_next .AwaitNext cur_idx (.ok true) = ⟨.ok (), none, .None⟩ ∧
      concat_await_next .AwaitNext cur_idx (.ok false) =
        ⟨.ok (), some (cur_idx + 1), .None⟩ ∧
      concat_await_next .AwaitNext cur_idx (.err e) = ⟨.error e, none, .None⟩ ∧
      concat_await_next .AwaitSeekIdx cur_idx child =
        ⟨.ok (), some (cur_idx + 1), .None⟩ ∧
      (concat_await_next stage cur_idx child).stageAfter = .None := by
  intro e cur_idx child stage
  refine ⟨rfl, rfl, rfl, rfl, rfl, rfl, rfl, ?_, ?_⟩
  · cases child with
    | ok v => cases v <;> rfl
    | err e2 => rfl
  · cases stage with
    | None => rfl
    | AwaitNext =>
      cases child with
      | ok v => cases v <;> rfl
      | err e2 => rfl
    | AwaitSeekIdx =>
      cases child with
      | ok v => cases v <;> rfl
      | err e2 => rfl

/-! ### C9 -/

/-- One of the ten input chunks of the rechunk scenario: a single `i32`
column holding the 60 consecutive values starting at `60 * j`. -/
def rechunkInputChunk (j : Nat) : DataChunk Int :=
  ⟨[(List.range 60).map fun i => (Int.ofNat (60 * j + i))], 60⟩

/-- The ten input chunks of the rechunk scenario, covering 0..600. -/
def rechunkInput : List (DataChunk Int) := (List.range 10).map rechunkInputChunk

/-- C9: rechunking ten 60-row chunks holding 0..600 with `each_size_limit`
80 yields exactly eight chunks of cardinalities `[80,80,80,80,80,80,80,40]`
whose concatenated rows are 0..600 in the original order. -/
theorem rechunk_ten_sixty_at_80 :
    ((DataChunk.rechunk rechunkInput 80).map fun l =>
       l.map (fun c => c.cardinality)) = some [80, 80, 80, 80, 80, 80, 80, 40] ∧
    ((DataChunk.rechunk rechunkInput 80).map fun l =>
       (l.map fun c => c.columns.getD 0 []).flatten) =
      some ((List.range 600).map Int.ofNat) := by
  constructor
  · set_option maxRecDepth 200000 in rfl
  · set_option maxRecDepth 400000 in rfl

/-! ### C1 -/

/-- C1 fails on the code: for a forward concat iterator the binary search of
`seek` compares the seek key against each table's LEFT boundary, not the
right one as the claim states.  Over the run `[cxTabA, cxTabB]` (key ranges
`[a@1, c@1]` and `[m@1, n@1]`) and the seek key `mz@1` lying strictly inside
the second range, the code picks table 1 and lands on `n@1`, while the
claim's right-boundary rule picks table 0, falls through, rewinds table 1 and
lands on `m@1` — a different key, and one that is strictly BELOW the seek
key, violating even the basic seek contract. -/
theorem concat_seek_boundary_counterexample :
    ConcatIteratorInner.seekTableIdx .Forward [cxTabA, cxTabB] cxSeekKey = 1 ∧
    claimSeekTableIdx .Forward [cxTabA, cxTabB] cxSeekKey = 0 ∧
    ((ConcatIteratorInner.new [cxTabA, cxTabB]).seek cxSeekKey).key? = some cxKeyN ∧
    (claimConcatSeek (ConcatIteratorInner.new [cxTabA, cxTabB]) cxSeekKey).key? =
      some cxKeyM ∧
    cxKeyN ≠ cxKeyM ∧
    compare_key cxKeyM cxSeekKey = .lt := by
  refine ⟨rfl, rfl, rfl, rfl, by decide, by decide⟩


theorem keyLe_transitive : Transitive keyLe := fun _ _ _ h1 h2 => keyLe.trans h1 h2

theorem keyLe_reflexive : Reflexive keyLe := keyLe.refl

theorem keyGe_transitive : Transitive (fun a b : EncodedKey => keyLe b a) :=
  fun _ _ _ h1 h2 => keyLe.trans h2 h1

theorem keyGe_reflexive : Reflexive (fun a b : EncodedKey => keyLe b a) := keyLe.refl

/-- The forward seek predicate of the concat iterators: the table's left
boundary is not strictly past the seek key (`ord == Less || ord == Equal`). -/
def pLeft (key : EncodedKey) (t : Sstable) : Bool :=
  compare_key t.key_range.left key == .lt || compare_key t.key_range.left key == .eq

/-- The backward seek predicate: the table's right boundary is not strictly
past the seek key for a backward scan (`ord == Greater || ord == Equal`). -/
def pRight (key : EncodedKey) (t : Sstable) : Bool :=
  compare_key t.key_range.right key == .gt || compare_key t.key_range.right key == .eq

theorem pLeft_iff (key : EncodedKey) (t : Sstable) :
    pLeft key t = true ↔ keyLe t.key_range.left key :=
  lt_or_eq_iff_keyLe _ _

theorem pRight_iff (key : EncodedKey) (t : Sstable) :
    pRight key t = true ↔ keyLe key t.key_range.right :=
  gt_or_eq_iff_keyLe _ _

/-- C1 (amended): `seek(k)` binary-searches the run by comparing `k` to each
SST's boundary key — the LEFT end of its key range for a forward iterator and
the RIGHT end for a backward iterator — takes the last SST whose boundary is
not strictly past `k` (the first SST when there is none), delegates `seek(k)`
to that child, and, if the child is then invalid, advances to the next SST
with a rewind.  The run hypotheses are the construction-site invariant:
boundaries ascending for forward, descending for backward. -/
theorem concat_seek_binary_search (st : ConcatIteratorInner) (key : EncodedKey) :
    ((st.tables.map fun t => t.key_range.left).Chain' keyLe →
      ((∃ j tj, st.tables.get? j = some tj ∧ keyLe tj.key_range.left key) →
        ∃ tn, st.tables.get? (ConcatIteratorInner.seekTableIdx .Forward st.tables key) =
                some tn ∧
          keyLe tn.key_range.left key ∧
          ∀ j tj, st.tables.get? j = some tj → keyLe tj.key_range.left key →
            j ≤ ConcatIteratorInner.seekTableIdx .Forward st.tables key) ∧
      ((∀ j tj, st.tables.get? j = some tj → ¬ keyLe tj.key_range.left key) →
        ConcatIteratorInner.seekTableIdx .Forward st.tables key = 0)) ∧
    (((st.tables.map fun t => t.key_range.right).Chain' fun a b => keyLe b a) →
      ((∃ j tj, st.tables.get? j = some tj ∧ keyLe key tj.key_range.right) →
        ∃ tn, st.tables.get? (ConcatIteratorInner.seekTableIdx .Backward st.tables key) =
                some tn ∧
          keyLe key tn.key_range.right ∧
          ∀ j tj, st.tables.get? j = some tj → keyLe key tj.key_range.right →
            j ≤ ConcatIteratorInner.seekTableIdx .Backward st.tables key) ∧
      ((∀ j tj, st.tables.get? j = some tj → ¬ keyLe key tj.key_range.right) →
        ConcatIteratorInner.seekTableIdx .Backward st.tables key = 0)) ∧
    (st.seek key =
      if (st.seek_idx (ConcatIteratorInner.seekTableIdx .Forward st.tables key)
            (some key)).is_valid
      then st.seek_idx (ConcatIteratorInner.seekTableIdx .Forward st.tables key)
             (some key)
      else (st.seek_idx (ConcatIteratorInner.seekTableIdx .Forward st.tables key)
              (some key)).seek_idx
             (ConcatIteratorInner.seekTableIdx .Forward st.tables key + 1) none) := by
  have hseekF : ConcatIteratorInner.seekTableIdx .Forward st.tables key =
      partitionPoint (pLeft key) st.tables - 1 := rfl
  have hseekB : ConcatIteratorInner.seekTableIdx .Backward st.tables key =
      partitionPoint (pRight key) st.tables - 1 := rfl
  have hpF : ((st.tables.map fun t => t.key_range.left).Chain' keyLe) →
      ∀ i j (ti tj : Sstable), i ≤ j → st.tables.get? i = some ti →
      st.tables.get? j = some tj → pLeft key tj = true → pLeft key ti = true := by
    intro hasc i j ti tj hij hti htj hpj
    rw [pLeft_iff] at hpj ⊢
    have hmi : (st.tables.map fun t => t.key_range.left).get? i =
        some ti.key_range.left := by rw [List.get?_map, hti]; rfl
    have hmj : (st.tables.map fun t => t.key_range.left).get? j =
        some tj.key_range.left := by rw [List.get?_map, htj]; rfl
    exact keyLe.trans
      (chain_rel_of_get keyLe_transitive keyLe_reflexive hasc hij hmi hmj) hpj
  have hpB : ((st.tables.map fun t => t.key_range.right).Chain' fun a b => keyLe b a) →
      ∀ i j (ti tj : Sstable), i ≤ j → st.tables.get? i = some ti →
      st.tables.get? j = some tj → pRight key tj = true → pRight key ti = true := by
    intro hdesc i j ti tj hij hti htj hpj
    rw [pRight_iff] at hpj ⊢
    have hmi : (st.tables.map fun t => t.key_range.right).get? i =
        some ti.key_range.right := by rw [List.get?_map, hti]; rfl
    have hmj : (st.tables.map fun t => t.key_range.right).get? j =
        some tj.key_range.right := by rw [List.get?_map, htj]; rfl
    exact keyLe.trans hpj
      (chain_rel_of_get keyGe_transitive keyGe_reflexive hdesc hij hmi hmj)
  refine ⟨?_, ?_, rfl⟩
  all_goals intro hchain
  case _ =>
    have hF := partitionPoint_last (pLeft key) st.tables (hpF hchain)
    refine ⟨?_, ?_⟩
    · rintro ⟨j, tj, hj, hle⟩
      obtain ⟨⟨xn, hxn, hpxn⟩, _⟩ := hF.1 j tj hj ((pLeft_iff _ _).mpr hle)
      refine ⟨xn, by rw [hseekF]; exact hxn, (pLeft_iff _ _).mp hpxn, ?_⟩
      intro j2 tj2 hj2 hle2
      obtain ⟨_, hle3⟩ := hF.1 j2 tj2 hj2 ((pLeft_iff _ _).mpr hle2)
      rw [hseekF]; exact hle3
    · intro hnone
      rw [hseekF]
      refine hF.2 ?_
      intro j xj hj
      rcases hb : pLeft key xj with _ | _
      · rfl
      · exact absurd ((pLeft_iff _ _).mp hb) (hnone j xj hj)
  case _ =>
    have hB := partitionPoint_last (pRight key) st.tables (hpB hchain)
    refine ⟨?_, ?_⟩
    · rintro ⟨j, tj, hj, hle⟩
      obtain ⟨⟨xn, hxn, hpxn⟩, _⟩ := hB.1 j tj hj ((pRight_iff _ _).mpr hle)
      refine ⟨xn, by rw [hseekB]; exact hxn, (pRight_iff _ _).mp hpxn, ?_⟩
      intro j2 tj2 hj2 hle2
      obtain ⟨_, hle3⟩ := hB.1 j2 tj2 hj2 ((pRight_iff _ _).mpr hle2)
      rw [hseekB]; exact hle3
    · intro hnone
      rw [hseekB]
      refine hB.2 ?_
      intro j xj hj
      rcases hb : pRight key xj with _ | _
      · rfl
      · exact absurd ((pRight_iff _ _).mp hb) (hnone j xj hj)

/-- Witness for `concat_seek_binary_search`: the two-table run of the
counterexample scenario (which IS sorted and non-overlapping) with a seek key
inside the second table. -/
theorem concat_seek_binary_search_witness :
    ((ConcatIteratorInner.new [cxTabA, cxTabB]).tables.map fun t =>
        t.key_range.left).Chain' keyLe ∧
    (∃ tn, (ConcatIteratorInner.new [cxTabA, cxTabB]).tables.get?
        (ConcatIteratorInner.seekTableIdx .Forward
          (ConcatIteratorInner.new [cxTabA, cxTabB]).tables cxSeekKey) = some tn ∧
      keyLe tn.key_range.left cxSeekKey ∧
      ∀ j tj, (ConcatIteratorInner.new [cxTabA, cxTabB]).tables.get? j = some tj →
        keyLe tj.key_range.left cxSeekKey →
        j ≤ ConcatIteratorInner.seekTableIdx .Forward
              (ConcatIteratorInner.new [cxTabA, cxTabB]).tables cxSeekKey) ∧
    (∃ tn, (ConcatIteratorInner.new [cxTabB, cxTabA]).tables.get?
        (ConcatIteratorInner.seekTableIdx .Backward
          (ConcatIteratorInner.new [cxTabB, cxTabA]).tables cxSeekKey) = some tn ∧
      keyLe cxSeekKey tn.key_range.right ∧
      ∀ j tj, (ConcatIteratorInner.new [cxTabB, cxTabA]).tables.get? j = some tj →
        keyLe cxSeekKey tj.key_range.right →
        j ≤ ConcatIteratorInner.seekTableIdx .Backward
              (ConcatIteratorInner.new [cxTabB, cxTabA]).tables cxSeekKey) := by
  have h := concat_seek_binary_search (ConcatIteratorInner.new [cxTabA, cxTabB]) cxSeekKey
  have h2 := concat_seek_binary_search (ConcatIteratorInner.new [cxTabB, cxTabA]) cxSeekKey
  exact ⟨List.chain'_pair.mpr (by decide),
    (h.1 (List.chain'_pair.mpr (by decide))).1 ⟨1, cxTabB, rfl, by decide⟩,
    (h2.2.1 (List.chain'_pair.mpr (by decide))).1 ⟨0, cxTabB, rfl, by decide⟩⟩


/-- Any error escaping the ordered dedup loop leaves the heap cleared. -/
theorem orderedLoop_error (dir : DirectionEnum) :
    ∀ (fuel : Nat) (st : MergeIteratorInner) (tk : List Byte) (e : Nat),
      (MergeIteratorInner.orderedLoop dir fuel st tk).1 = .error e →
      (MergeIteratorInner.orderedLoop dir fuel st tk).2.heap = [] := by
  intro fuel
  induction fuel with
  | zero => intro st tk e h; cases h
  | succ fuel ih =>
    intro st tk e h
    rcases htop : heapTop? (ordered_cmp dir) st.heap with _ | ⟨i, node⟩
    · simp only [MergeIteratorInner.orderedLoop, htop] at h
      cases h
    · by_cases hk : (node.key == tk) = true
      · rcases hnext : node.next with e2 | n2
        · simp only [MergeIteratorInner.orderedLoop, htop, hk, if_true, hnext] at h ⊢
        · by_cases hv : n2.valid = true
          · simp only [MergeIteratorInner.orderedLoop, htop, hk, if_true, hnext, hv] at h ⊢
            exact ih _ _ _ h
          · simp only [MergeIteratorInner.orderedLoop, htop, hk, if_true, hnext, hv,
              Bool.false_eq_true, if_false] at h ⊢
            exact ih _ _ _ h
      · simp only [Bool.not_eq_true] at hk
        simp only [MergeIteratorInner.orderedLoop, htop, hk, Bool.false_eq_true,
          if_false] at h
        cases h

/-- Fuel for the ordered loop is at least one on a peekable heap. -/
theorem heapMeasure_pos {cmp : Node → Node → Ordering} {heap : List Node}
    {i : Nat} {node : Node} (h : heapTop? cmp heap = some (i, node)) :
    1 ≤ MergeIteratorInner.heapMeasure heap := by
  cases heap with
  | nil => cases h
  | cons n rest =>
    unfold MergeIteratorInner.heapMeasure
    simp [List.sum_cons]
    omega

/-- C3: when a child of a merge iterator (either flavor, either direction)
returns an error from `next`, the merge pops that child, clears the heap and
re-raises the same error; afterwards `is_valid()` is `false`, and `next`
cannot make the iterator valid again (the heap stays empty until a `rewind`
or `seek` rebuilds it). -/
theorem merge_child_error_clears_heap :
    ∀ (dir : DirectionEnum) (st : MergeIteratorInner) (i : Nat) (node : Node) (e : Nat),
      (heapTop? (unordered_cmp dir) st.heap = some (i, node) →
        node.next = .error e →
        MergeIteratorInner.nextUnordered dir st = (.error e, { st with heap := [] }) ∧
        MergeIteratorInner.is_valid (unordered_cmp dir) { st with heap := [] } = false) ∧
      (heapTop? (ordered_cmp dir) st.heap = some (i, node) →
        node.next = .error e →
        MergeIteratorInner.nextOrdered dir st =
          (.error e, { st with last_table_key := node.key, heap := [] }) ∧
        MergeIteratorInner.is_valid (ordered_cmp dir)
          { st with last_table_key := node.key, heap := [] } = false) ∧
      ((MergeIteratorInner.nextOrdered dir st).1 = .error e →
        (MergeIteratorInner.nextOrdered dir st).2.heap = []) ∧
      (st.heap = [] →
        MergeIteratorInner.nextUnordered dir st = (.ok (), st) ∧
        MergeIteratorInner.nextOrdered dir st = (.ok (), st) ∧
        MergeIteratorInner.is_valid (unordered_cmp dir) st = false ∧
        MergeIteratorInner.is_valid (ordered_cmp dir) st = false) := by
  intro dir st i node e
  refine ⟨?_, ?_, ?_, ?_⟩
  · intro htop herr
    constructor
    · simp only [MergeIteratorInner.nextUnordered, htop, herr]
    · rfl
  · intro htop herr
    constructor
    · obtain ⟨k, hk⟩ : ∃ k, MergeIteratorInner.heapMeasure st.heap = k + 1 := by
        have := heapMeasure_pos htop
        exact ⟨MergeIteratorInner.heapMeasure st.heap - 1, by omega⟩
      have hheap : ({ st with last_table_key := node.key } :
          MergeIteratorInner).heap = st.heap := rfl
      simp only [MergeIteratorInner.nextOrdered, htop, hk,
        MergeIteratorInner.orderedLoop, hheap, beq_self_eq_true, if_true, herr]
    · rfl
  · intro herr
    rcases htop : heapTop? (ordered_cmp dir) st.heap with _ | ⟨j, nd⟩
    · simp only [MergeIteratorInner.nextOrdered, htop] at herr
      cases herr
    · simp only [MergeIteratorInner.nextOrdered, htop] at herr ⊢
      exact orderedLoop_error dir _ _ _ e herr
  · intro hnil
    refine ⟨?_, ?_, ?_, ?_⟩
    · simp only [MergeIteratorInner.nextUnordered, hnil, heapTop?]
    · simp only [MergeIteratorInner.nextOrdered, hnil, heapTop?]
    · simp only [MergeIteratorInner.is_valid, hnil, heapTop?]
    · simp only [MergeIteratorInner.is_valid, hnil, heapTop?]

/-- Witness for `merge_child_error_clears_heap`: a two-child unordered merge
whose first child fails its very first `next` with error code 42. -/
theorem merge_child_error_clears_heap_witness :
    (heapTop? (unordered_cmp .Forward)
        ((MergeIteratorInner.newUnordered
          [([(withEpoch [107] 1, .put [])], some 0, 42),
           ([(withEpoch [108] 1, .put [])], none, 0)]).rewind).heap =
      some (0, ⟨[(withEpoch [107] 1, .put [])], 0, 0, some 0, 42⟩)) ∧
    (MergeIteratorInner.nextUnordered .Forward
        ((MergeIteratorInner.newUnordered
          [([(withEpoch [107] 1, .put [])], some 0, 42),
           ([(withEpoch [108] 1, .put [])], none, 0)]).rewind) =
      (.error 42,
        { (MergeIteratorInner.newUnordered
            [([(withEpoch [107] 1, .put [])], some 0, 42),
             ([(withEpoch [108] 1, .put [])], none, 0)]).rewind with heap := [] })) := by
  have h := merge_child_error_clears_heap .Forward
    ((MergeIteratorInner.newUnordered
      [([(withEpoch [107] 1, .put [])], some 0, 42),
       ([(withEpoch [108] 1, .put [])], none, 0)]).rewind)
    0 ⟨[(withEpoch [107] 1, .put [])], 0, 0, some 0, 42⟩ 42
  exact ⟨rfl, (h.1 rfl rfl).1⟩


theorem emit_invalid {st : ConcatIteratorInner} (h : st.key? = none) :
    ∀ fuel, st.emit fuel = [] := by
  intro fuel
  cases fuel with
  | zero => rfl
  | succ n => simp only [ConcatIteratorInner.emit, h]

theorem run_invalid {st : ConcatIteratorInner} (h : st.is_valid = false) :
    ∀ fuel, st.run fuel = st := by
  intro fuel
  cases fuel with
  | zero => rfl
  | succ n => simp only [ConcatIteratorInner.run, h, Bool.false_eq_true, if_false]

/-- The workhorse of the concat-iterator claims: from a state positioned on
entry `p` of table `i`, driving `next` to exhaustion emits the rest of table
`i` followed by all later tables' keys, ends with no active child, and
accumulates into `stats` the cost of table `i` and of every later table. -/
theorem concat_run_spec (ts : List Sstable) :
    ∀ (fuel i p : Nat) (st : ConcatIteratorInner) (t : Sstable),
      st.tables = ts →
      ts.get? i = some t →
      st.cur_idx = i →
      st.sstable_iter = some ⟨t.entries, p, t.cost⟩ →
      p < t.entries.length →
      (∀ j tj, i < j → ts.get? j = some tj → tj.entries ≠ []) →
      (t.entries.length - p) + ((ts.drop (i + 1)).map fun tb => tb.entries.length).sum
        ≤ fuel →
      st.emit fuel =
        ((t.entries.drop p).map fun e => e.1) ++
          ((ts.drop (i + 1)).map Sstable.keys).flatten ∧
      (st.run fuel).sstable_iter = none ∧
      (st.run fuel).stats =
        st.stats + t.cost + ((ts.drop (i + 1)).map fun tb => tb.cost).sum := by
  intro fuel
  induction fuel with
  | zero =>
    intro i p st t hts hti hci hiter hp hne hfuel
    exfalso; omega
  | succ fuel ih =>
    intro i p st t hts hti hci hiter hp hne hfuel
    have hep : t.entries.get? p = some (t.entries.get ⟨p, hp⟩) := List.get?_eq_get hp
    have hkey : st.key? = some ((t.entries.get ⟨p, hp⟩).1) := by
      simp only [ConcatIteratorInner.key?, hiter, SstableIterator.key?, hep,
        Option.map_some']
    have hvalid : st.is_valid = true := by
      simp only [ConcatIteratorInner.is_valid, hiter, SstableIterator.is_valid]
      exact decide_eq_true hp
    have hdropp : t.entries.drop p =
        t.entries.get ⟨p, hp⟩ :: t.entries.drop (p + 1) := by
      rw [List.drop_eq_getElem_cons hp]; rfl
    by_cases hnv : p + 1 < t.entries.length
    · -- still inside table i
      have hnext : st.next = { st with sstable_iter := some ⟨t.entries, p + 1, t.cost⟩ } := by
        simp only [ConcatIteratorInner.next, hiter, SstableIterator.next,
          SstableIterator.is_valid]
        rw [if_pos (decide_eq_true hnv)]
      obtain ⟨hemit, hrun, hstats⟩ := ih i (p + 1)
        { st with sstable_iter := some ⟨t.entries, p + 1, t.cost⟩ } t hts hti hci rfl
        hnv hne (by omega)
      refine ⟨?_, ?_, ?_⟩
      · simp only [ConcatIteratorInner.emit, hkey, hnext, hemit, hdropp, List.map_cons,
          List.cons_append]
      · simp only [ConcatIteratorInner.run, hvalid, if_true, hnext, hrun]
      · simp only [ConcatIteratorInner.run, hvalid, if_true, hnext]
        rw [hstats]
    · -- leaving table i
      have hlen : p + 1 = t.entries.length := by omega
      have hdropnil : t.entries.drop (p + 1) = [] := by
        rw [hlen]; exact List.drop_length _
      have hnext0 : st.next = ConcatIteratorInner.seek_idx
          { st with sstable_iter := some ⟨t.entries, p + 1, t.cost⟩ } (i + 1) none := by
        simp only [ConcatIteratorInner.next, hiter, SstableIterator.next,
          SstableIterator.is_valid]
        rw [if_neg (by simpa using hnv), hci]
      rcases hti2 : ts.get? (i + 1) with _ | t2
      · -- no further table: the child is dropped and its statistics drained
        have hseek : ConcatIteratorInner.seek_idx
            { st with sstable_iter := some ⟨t.entries, p + 1, t.cost⟩ } (i + 1) none =
            { st with sstable_iter := none, stats := st.stats + t.cost } := by
          simp only [ConcatIteratorInner.seek_idx, hts, hti2, ConcatIteratorInner.drained]
        have hdropts : ts.drop (i + 1) = [] := by
          have hle : ts.length ≤ i + 1 := by
            by_contra hcon
            push_neg at hcon
            rw [List.get?_eq_get hcon] at hti2
            cases hti2
          exact List.drop_eq_nil_of_le hle
        have hinv2 : ConcatIteratorInner.is_valid
            { st with sstable_iter := none, stats := st.stats + t.cost } = false := rfl
        have hkey2 : ConcatIteratorInner.key?
            { st with sstable_iter := none, stats := st.stats + t.cost } = none := rfl
        refine ⟨?_, ?_, ?_⟩
        · simp only [ConcatIteratorInner.emit, hkey, hnext0, hseek,
            emit_invalid hkey2, hdropp, hdropnil, hdropts]
          rfl
        · simp only [ConcatIteratorInner.run, hvalid, if_true, hnext0, hseek,
            run_invalid hinv2]
        · simp only [ConcatIteratorInner.run, hvalid, if_true, hnext0, hseek,
            run_invalid hinv2, hdropts]
          simp
      · -- swap to table i+1, draining table i's statistics
        have hseek : ConcatIteratorInner.seek_idx
            { st with sstable_iter := some ⟨t.entries, p + 1, t.cost⟩ } (i + 1) none =
            { st with sstable_iter := some ⟨t2.entries, 0, t2.cost⟩, cur_idx := i + 1,
                      stats := st.stats + t.cost } := by
          simp only [ConcatIteratorInner.seek_idx, hts, hti2, ConcatIteratorInner.drained,
            SstableIterator.create, SstableIterator.rewind]
        have ht2ne : t2.entries ≠ [] := hne (i + 1) t2 (by omega) hti2
        have ht2len : 0 < t2.entries.length := List.length_pos.mpr ht2ne
        have hi2 : i + 1 < ts.length := by
          by_contra hcon
          push_neg at hcon
          rw [List.get?_eq_none.mpr hcon] at hti2
          cases hti2
        have hdropts : ts.drop (i + 1) = t2 :: ts.drop (i + 2) := by
          rw [List.drop_eq_getElem_cons hi2]
          congr 1
          have hg := @List.get?_eq_get _ ts _ hi2
          rw [hg] at hti2
          exact Option.some_inj.mp hti2
        obtain ⟨hemit, hrun, hstats⟩ := ih (i + 1) 0
          { st with sstable_iter := some ⟨t2.entries, 0, t2.cost⟩, cur_idx := i + 1,
                    stats := st.stats + t.cost } t2 hts hti2 rfl rfl
          ht2len (fun j tj hj htj => hne j tj (by omega) htj)
          (by
            rw [hdropts] at hfuel
            simp only [List.map_cons, List.sum_cons] at hfuel
            simp only [show i + 1 + 1 = i + 2 from by omega]
            omega)
        refine ⟨?_, ?_, ?_⟩
        · simp only [ConcatIteratorInner.emit, hkey, hnext0, hseek, hemit, hdropp,
            hdropnil, hdropts, List.map_cons, List.map_nil, List.flatten_cons,
            List.cons_append, List.nil_append]
          rfl
        · simp only [ConcatIteratorInner.run, hvalid, if_true, hnext0, hseek, hrun]
        · simp only [ConcatIteratorInner.run, hvalid, if_true, hnext0, hseek]
          rw [hstats]
          dsimp only
          simp only [hdropts, List.map_cons, List.sum_cons,
            show i + 1 + 1 = i + 2 from by omega]
          omega

/-- A full forward iteration of a concat iterator from `rewind`: the emitted
keys are the concatenation of all tables' keys, the final state has no active
child, and the accumulated statistics are the sum of every table's cost. -/
theorem concat_rewind_spec (ts : List Sstable) (fuel : Nat)
    (hne : ∀ t ∈ ts, t.entries ≠ [])
    (hfuel : (ts.map fun t => t.entries.length).sum ≤ fuel) :
    (ConcatIteratorInner.new ts).rewind.emit fuel = (ts.map Sstable.keys).flatten ∧
    ((ConcatIteratorInner.new ts).rewind.run fuel).sstable_iter = none ∧
    ((ConcatIteratorInner.new ts).rewind.run fuel).stats =
      (ts.map fun t => t.cost).sum := by
  cases ts with
  | nil =>
    have h1 : (ConcatIteratorInner.new ([] : List Sstable)).rewind =
        ⟨none, 0, [], 0⟩ := rfl
    rw [h1]
    exact ⟨@emit_invalid ⟨none, 0, [], 0⟩ rfl fuel,
      by rw [@run_invalid ⟨none, 0, [], 0⟩ rfl fuel],
      by rw [@run_invalid ⟨none, 0, [], 0⟩ rfl fuel]; rfl⟩
  | cons t0 rest =>
    have h1 : (ConcatIteratorInner.new (t0 :: rest)).rewind =
        ⟨some ⟨t0.entries, 0, t0.cost⟩, 0, t0 :: rest, 0⟩ := rfl
    have hp : 0 < t0.entries.length :=
      List.length_pos.mpr (hne t0 (List.mem_cons_self _ _))
    obtain ⟨hemit, hrun, hstats⟩ := concat_run_spec (t0 :: rest) fuel 0 0
      ⟨some ⟨t0.entries, 0, t0.cost⟩, 0, t0 :: rest, 0⟩ t0 rfl rfl rfl rfl hp
      (fun j tj _ htj => hne tj (List.get?_mem htj))
      (by simp only [List.drop_succ_cons, List.drop_zero, List.map_cons,
            List.sum_cons] at hfuel ⊢; omega)
    rw [h1]
    refine ⟨?_, hrun, ?_⟩
    · rw [hemit]
      simp [Sstable.keys]
    · rw [hstats]
      simp

/-! ### Scenario material for the two-SST concat test -/

def k001 : EncodedKey := withEpoch [107, 48, 48, 49] 1
def k002 : EncodedKey := withEpoch [107, 48, 48, 50] 1
def k003 : EncodedKey := withEpoch [107, 48, 48, 51] 1
def k004 : EncodedKey := withEpoch [107, 48, 48, 52] 1
def k005 : EncodedKey := withEpoch [107, 48, 48, 53] 1

def sstA : Sstable :=
  ⟨⟨k001, k003⟩, [(k001, .put [49]), (k002, .put [50]), (k003, .put [51])], 3⟩

def sstB : Sstable := ⟨⟨k004, k005⟩, [(k004, .put [52]), (k005, .put [53])], 7⟩

/-- C5: for any SST run of nonempty tables, a forward concat iterator driven
from `rewind` until invalid emits exactly the concatenation of the tables'
keys — once each and strictly sorted when the run is sorted under the
versioned comparator; in particular, over SST A with keys `[k001, k002,
k003]@1` and SST B with keys `[k004, k005]@1` it yields exactly those five
keys in order, and `seek(k003)` yields `k003, k004, k005`. -/
theorem concat_completeness :
    (∀ (ts : List Sstable) (fuel : Nat),
      (∀ t ∈ ts, t.entries ≠ []) →
      (ts.map fun t => t.entries.length).sum ≤ fuel →
      (ConcatIteratorInner.new ts).rewind.emit fuel = (ts.map Sstable.keys).flatten ∧
      (((ts.map Sstable.keys).flatten).Chain' keyLt →
        ((ConcatIteratorInner.new ts).rewind.emit fuel).Chain' keyLt ∧
        ((ConcatIteratorInner.new ts).rewind.emit fuel).Nodup)) ∧
    (ConcatIteratorInner.new [sstA, sstB]).rewind.emit 5 =
      [k001, k002, k003, k004, k005] ∧
    ((ConcatIteratorInner.new [sstA, sstB]).seek k003).emit 5 =
      [k003, k004, k005] := by
  refine ⟨?_, rfl, rfl⟩
  intro ts fuel hne hfuel
  obtain ⟨hemit, _, _⟩ := concat_rewind_spec ts fuel hne hfuel
  refine ⟨hemit, ?_⟩
  intro hchain
  rw [hemit]
  letI : IsTrans EncodedKey keyLt := ⟨fun _ _ _ h1 h2 => keyLt_trans h1 h2⟩
  have hpw := List.chain'_iff_pairwise.mp hchain
  exact ⟨hchain, hpw.imp fun h => keyLt.ne h⟩

/-- Witness for `concat_completeness`: the two-SST scenario instantiating the
general completeness statement. -/
theorem concat_completeness_witness :
    (ConcatIteratorInner.new [sstA, sstB]).rewind.emit 5 =
      ([sstA, sstB].map Sstable.keys).flatten ∧
    ((ConcatIteratorInner.new [sstA, sstB]).rewind.emit 5).Chain' keyLt := by
  have h := (concat_completeness.1 [sstA, sstB] 5 (by decide) (by decide))
  refine ⟨h.1, (h.2 ?_).1⟩
  show List.Chain' keyLt [k001, k002, k003, k004, k005]
  simp only [List.chain'_cons, List.chain'_singleton, and_true]
  refine ⟨by decide, by decide, by decide, by decide⟩

/-- C8: every `seek_idx` call — the single place a concat iterator swaps its
child or moves past the run — drains the outgoing child's local statistics
into the concat iterator's own sink, and consequently after a full iteration
`collect_local_statistic` reports the sum of the local statistics of all the
per-SST child iterators it created (one per table), with every child
drained. -/
theorem concat_statistics_additivity :
    (∀ (st : ConcatIteratorInner) (idx : Nat) (sk : Option EncodedKey),
      (st.seek_idx idx sk).stats = st.stats + st.drained) ∧
    (∀ (ts : List Sstable) (fuel : Nat),
      (∀ t ∈ ts, t.entries ≠ []) →
      (ts.map fun t => t.entries.length).sum ≤ fuel →
      ((ConcatIteratorInner.new ts).rewind.run fuel).collect_local_statistic 0 =
        (ts.map fun t => t.cost).sum ∧
      ((ConcatIteratorInner.new ts).rewind.run fuel).sstable_iter = none) := by
  constructor
  · intro st idx sk
    rcases h : st.tables.get? idx with _ | t <;>
      simp only [ConcatIteratorInner.seek_idx, h]
  · intro ts fuel hne hfuel
    obtain ⟨_, hrun, hstats⟩ := concat_rewind_spec ts fuel hne hfuel
    refine ⟨?_, hrun⟩
    simp only [ConcatIteratorInner.collect_local_statistic, hstats, Nat.zero_add]

/-- Witness for `concat_statistics_additivity`: the two-SST run with costs 3
and 7 accumulates 10. -/
theorem concat_statistics_additivity_witness :
    ((ConcatIteratorInner.new [sstA, sstB]).rewind.run 5).collect_local_statistic 0 =
      ([sstA, sstB].map fun t => t.cost).sum ∧
    ((ConcatIteratorInner.new [sstA, sstB]).rewind.run 5).sstable_iter = none :=
  concat_statistics_additivity.2 [sstA, sstB] 5 (by decide) (by decide)


/-- The seek predicate over the entries of a table or stream: the entry's key
is strictly below the seek key. -/
def pEntry (k : EncodedKey) (en : EncodedKey × HValue) : Bool :=
  compare_key en.1 k == .lt

theorem pEntry_iff (k : EncodedKey) (en : EncodedKey × HValue) :
    pEntry k en = true ↔ keyLt en.1 k := by
  unfold pEntry keyLt
  rcases h : compare_key en.1 k <;> decide

theorem sstSeek_eq (it : SstableIterator) (k : EncodedKey) :
    it.seek k = { it with pos := partitionPoint (pEntry k) it.entries } := rfl

theorem nodeSeek_eq (n : Node) (k : EncodedKey) :
    n.seek k = { n with pos := partitionPoint (pEntry k) n.entries } := rfl

/-- The entry at the seek position (when it exists) is at least the seek
key: `partitionPoint` stops at the first entry not strictly below `k`. -/
theorem seekPos_key_ge (entries : List (EncodedKey × HValue)) (k : EncodedKey)
    {e : EncodedKey × HValue}
    (h : entries.get? (partitionPoint (pEntry k) entries) = some e) : keyLe k e.1 := by
  have hlt : partitionPoint (pEntry k) entries < entries.length := by
    by_contra hcon
    push_neg at hcon
    rw [List.get?_eq_none.mpr hcon] at h
    cases h
  obtain ⟨x, hx, hpx⟩ := partitionPoint_get_self_false (pEntry k) entries hlt
  rw [hx] at h
  cases h
  refine keyLe_of_not_lt ?_
  intro hk
  rw [(pEntry_iff _ _).mpr hk] at hpx
  cases hpx

/-- When the seek position falls off the table, every entry is strictly below
the seek key. -/
theorem seekPos_all_lt (entries : List (EncodedKey × HValue)) (k : EncodedKey)
    (h : entries.length ≤ partitionPoint (pEntry k) entries) :
    ∀ e ∈ entries, keyLt e.1 k := by
  intro e he
  have heq : partitionPoint (pEntry k) entries = entries.length :=
    Nat.le_antisymm (partitionPoint_le_length _ _) h
  exact (pEntry_iff _ _).mp (partitionPoint_all (pEntry k) entries heq e he)

theorem heapTop?_eq_none {cmp : Node → Node → Ordering} {l : List Node}
    (h : heapTop? cmp l = none) : l = [] := by
  cases l with
  | nil => rfl
  | cons n rest =>
    exfalso
    simp only [heapTop?] at h
    rcases htop : heapTop? cmp rest with _ | ⟨j, nd⟩ <;> simp only [htop] at h
    · cases h
    · by_cases hc : (cmp nd n == .gt) = true
      · rw [if_pos hc] at h; cases h
      · rw [if_neg hc] at h; cases h

theorem heapTop?_mem {cmp : Node → Node → Ordering} :
    ∀ {l : List Node} {i : Nat} {n : Node}, heapTop? cmp l = some (i, n) → n ∈ l := by
  intro l
  induction l with
  | nil => intro i n h; cases h
  | cons m rest ih =>
    intro i n h
    simp only [heapTop?] at h
    rcases htop : heapTop? cmp rest with _ | ⟨j, nd⟩ <;> simp only [htop] at h
    · cases h; exact List.mem_cons_self _ _
    · by_cases hc : (cmp nd m == .gt) = true
      · rw [if_pos hc] at h
        cases h
        exact List.mem_cons_of_mem _ (ih htop)
      · rw [if_neg hc] at h
        cases h
        exact List.mem_cons_self _ _


theorem pLeft_mono (ts : List Sstable) (k : EncodedKey)
    (hasc : (ts.map fun t => t.key_range.left).Chain' keyLe) :
    ∀ i j (ti tj : Sstable), i ≤ j → ts.get? i = some ti →
      ts.get? j = some tj → pLeft k tj = true → pLeft k ti = true := by
  intro i j ti tj hij hti htj hpj
  rw [pLeft_iff] at hpj ⊢
  have hmi : (ts.map fun t => t.key_range.left).get? i =
      some ti.key_range.left := by rw [List.get?_map, hti]; rfl
  have hmj : (ts.map fun t => t.key_range.left).get? j =
      some tj.key_range.left := by rw [List.get?_map, htj]; rfl
  exact keyLe.trans
    (chain_rel_of_get keyLe_transitive keyLe_reflexive hasc hij hmi hmj) hpj

/-- C7: after `seek(k)` on a forward iterator of the family, either the
iterator is invalid and the input holds no key `≥ k` under the versioned
comparator, or the first observed key `kk` satisfies `compare(kk, k) ≥ 0`.
Stated for the per-SST iterator, the merge iterator (either flavor via its
node order `cmp`), and the concat iterator (under the run invariants of its
construction site: nonempty tables, entries within their key ranges,
non-overlapping ranges, ascending left boundaries). -/
theorem forward_seek_contract :
    (∀ (it : SstableIterator) (k : EncodedKey),
      (∀ kk, (it.seek k).key? = some kk → keyLe k kk) ∧
      ((it.seek k).is_valid = false → ∀ e ∈ it.entries, keyLt e.1 k)) ∧
    (∀ (cmp : Node → Node → Ordering) (st : MergeIteratorInner) (k : EncodedKey),
      (∀ kk, (st.seek k).key? cmp = some kk → keyLe k kk) ∧
      ((st.seek k).is_valid cmp = false →
        ∀ n ∈ st.unused_iters ++ st.heap, ∀ e ∈ n.entries, keyLt e.1 k)) ∧
    (∀ (ts : List Sstable) (k : EncodedKey),
      (∀ t ∈ ts, t.entries ≠ []) →
      (∀ t ∈ ts, ∀ e ∈ t.entries,
        keyLe t.key_range.left e.1 ∧ keyLe e.1 t.key_range.right) →
      ts.Chain' (fun ta tb => keyLt ta.key_range.right tb.key_range.left) →
      ((ts.map fun t => t.key_range.left).Chain' keyLe) →
      (∀ kk, ((ConcatIteratorInner.new ts).seek k).key? = some kk → keyLe k kk) ∧
      (((ConcatIteratorInner.new ts).seek k).is_valid = false →
        ∀ t ∈ ts, ∀ e ∈ t.entries, keyLt e.1 k)) := by
  refine ⟨?_, ?_, ?_⟩
  · -- per-SST iterator
    intro it k
    constructor
    · intro kk h
      rw [sstSeek_eq] at h
      simp only [SstableIterator.key?] at h
      rcases hg : it.entries.get? (partitionPoint (pEntry k) it.entries) with _ | e
      · rw [hg] at h; cases h
      · rw [hg] at h
        cases h
        exact seekPos_key_ge it.entries k hg
    · intro h
      rw [sstSeek_eq] at h
      simp only [SstableIterator.is_valid] at h
      have hd := of_decide_eq_false h
      exact seekPos_all_lt it.entries k (by omega)
  · -- merge iterator
    intro cmp st k
    constructor
    · intro kk h
      simp only [MergeIteratorInner.seek, MergeIteratorInner.key?] at h
      rcases htop : heapTop? cmp (MergeIteratorInner.build_heap
          { st.reset_heap with unused_iters :=
              (st.reset_heap).unused_iters.map (Node.seek · k) }).heap with _ | im
      · simp only [htop] at h
        cases h
      · simp only [htop] at h
        have hmem := heapTop?_mem htop
        simp only [MergeIteratorInner.build_heap, List.mem_filter] at hmem
        obtain ⟨hmem2, _⟩ := hmem
        obtain ⟨c, _, hc⟩ := List.mem_map.mp hmem2
        rw [← hc] at h
        rw [nodeSeek_eq] at h
        simp only [Node.key?] at h
        rcases hg : c.entries.get? (partitionPoint (pEntry k) c.entries) with _ | e
        · rw [hg] at h; cases h
        · rw [hg] at h
          cases h
          exact seekPos_key_ge c.entries k hg
    · intro h n hn e he
      simp only [MergeIteratorInner.seek, MergeIteratorInner.is_valid] at h
      rcases htop : heapTop? cmp (MergeIteratorInner.build_heap
          { st.reset_heap with unused_iters :=
              (st.reset_heap).unused_iters.map (Node.seek · k) }).heap with _ | im
      · -- empty rebuilt heap: every child's seek fell off its entries
        have hnil := heapTop?_eq_none htop
        simp only [MergeIteratorInner.build_heap] at hnil
        have hall := List.filter_eq_nil.mp hnil
        have hs : Node.seek n k ∈
            ((st.reset_heap).unused_iters.map (Node.seek · k)) := by
          refine List.mem_map_of_mem _ ?_
          simpa [MergeIteratorInner.reset_heap] using hn
        have hnv := hall _ hs
        rw [nodeSeek_eq] at hnv
        simp only [Node.valid, Bool.not_eq_true] at hnv
        have hlen := of_decide_eq_false hnv
        exact seekPos_all_lt n.entries k (by omega) e he
      · simp only [htop] at h
        have hmem := heapTop?_mem htop
        simp only [MergeIteratorInner.build_heap, List.mem_filter] at hmem
        rw [hmem.2] at h
        cases h
  · -- concat iterator
    intro ts k hne hb hno hasc
    have hmono := pLeft_mono ts k hasc
    have hnpp : ConcatIteratorInner.seekTableIdx .Forward ts k =
        partitionPoint (pLeft k) ts - 1 := rfl
    have hppl := partitionPoint_le_length (pLeft k) ts
    rcases hgn : ts.get? (ConcatIteratorInner.seekTableIdx .Forward ts k) with _ | tn
    · -- the chosen index is out of range: only possible on the empty run
      have hlen0 : ts = [] := by
        have h1 := List.get?_eq_none.mp hgn
        rw [hnpp] at h1
        cases ts with
        | nil => rfl
        | cons t0 rest =>
          exfalso
          simp only [List.length_cons] at h1 hppl
          omega
      subst hlen0
      constructor
      · intro kk h
        cases h
      · intro _ t ht
        cases ht
    · -- the chosen table exists; the child seeks into it
      have hst1 : (ConcatIteratorInner.new ts).seek_idx
          (ConcatIteratorInner.seekTableIdx .Forward ts k) (some k) =
          ⟨some ⟨tn.entries, partitionPoint (pEntry k) tn.entries, tn.cost⟩,
            ConcatIteratorInner.seekTableIdx .Forward ts k, ts, 0⟩ := by
        simp only [ConcatIteratorInner.seek_idx, ConcatIteratorInner.new, hgn,
          ConcatIteratorInner.drained]
        rw [sstSeek_eq]
        rfl
      have hseek : (ConcatIteratorInner.new ts).seek k =
          (if ((ConcatIteratorInner.new ts).seek_idx
                (ConcatIteratorInner.seekTableIdx .Forward ts k) (some k)).is_valid
           then (ConcatIteratorInner.new ts).seek_idx
                  (ConcatIteratorInner.seekTableIdx .Forward ts k) (some k)
           else ((ConcatIteratorInner.new ts).seek_idx
                  (ConcatIteratorInner.seekTableIdx .Forward ts k) (some k)).seek_idx
                  (ConcatIteratorInner.seekTableIdx .Forward ts k + 1) none) := rfl
      by_cases hv : ((ConcatIteratorInner.new ts).seek_idx
          (ConcatIteratorInner.seekTableIdx .Forward ts k) (some k)).is_valid = true
      · -- the chosen child holds an entry at or past the seek key
        rw [hseek, if_pos hv]
        constructor
        · intro kk h
          rw [hst1] at h
          simp only [ConcatIteratorInner.key?, SstableIterator.key?] at h
          rcases hg : tn.entries.get? (partitionPoint (pEntry k) tn.entries) with _ | e
          · rw [hg] at h; cases h
          · rw [hg] at h
            cases h
            exact seekPos_key_ge tn.entries k hg
        · intro hvf
          rw [hv] at hvf
          cases hvf
      · -- the chosen table is exhausted below the seek key
        rw [hseek, if_neg hv]
        have hchildlen : tn.entries.length ≤ partitionPoint (pEntry k) tn.entries := by
          have hvf := eq_false_of_ne_true hv
          rw [hst1] at hvf
          simp only [ConcatIteratorInner.is_valid, SstableIterator.is_valid] at hvf
          have hd := of_decide_eq_false hvf
          omega
        have htn_lt : ∀ e ∈ tn.entries, keyLt e.1 k :=
          seekPos_all_lt tn.entries k hchildlen
        rcases hgn2 : ts.get? (ConcatIteratorInner.seekTableIdx .Forward ts k + 1)
            with _ | tn2
        · -- no further table: the whole run is below the seek key
          have hst2 : ((ConcatIteratorInner.new ts).seek_idx
              (ConcatIteratorInner.seekTableIdx .Forward ts k) (some k)).seek_idx
              (ConcatIteratorInner.seekTableIdx .Forward ts k + 1) none =
              { ((ConcatIteratorInner.new ts).seek_idx
                  (ConcatIteratorInner.seekTableIdx .Forward ts k) (some k)) with
                sstable_iter := none,
                stats := 0 + tn.cost } := by
            rw [hst1]
            simp only [ConcatIteratorInner.seek_idx, hgn2, ConcatIteratorInner.drained]
          constructor
          · intro kk h
            rw [hst2, hst1] at h
            cases h
          · intro _ t ht e he
            obtain ⟨j, hj⟩ := List.mem_iff_get?.mp ht
            have hjlen : j < ts.length := by
              by_contra hcon
              push_neg at hcon
              rw [List.get?_eq_none.mpr hcon] at hj
              cases hj
            have hnlen : ts.length ≤ ConcatIteratorInner.seekTableIdx .Forward ts k + 1 :=
              List.get?_eq_none.mp hgn2
            have hjn : j ≤ ConcatIteratorInner.seekTableIdx .Forward ts k := by omega
            rcases Nat.eq_or_lt_of_le hjn with hj_eq | hj_lt
            · -- t is the chosen table
              rw [hj_eq, hgn] at hj
              cases hj
              exact htn_lt e he
            · -- t precedes the chosen table: its entries end before it begins
              -- index bound: the chosen index is below the partition point
              have hppge1 : 1 ≤ partitionPoint (pLeft k) ts := by
                rw [hnpp] at hj_lt
                omega
              have hnlt : ConcatIteratorInner.seekTableIdx .Forward ts k <
                  partitionPoint (pLeft k) ts := by
                rw [hnpp]; omega
              obtain ⟨tx, htx, hptx⟩ := partitionPoint_get_of_lt (pLeft k) ts hnlt
              rw [hgn] at htx
              cases htx
              -- keyLe left_n k
              have hleftn : keyLe tn.key_range.left k := (pLeft_iff _ _).mp hptx
              -- adjacent non-overlap between j and j+1
              have hj1 : ts.get? (j + 1) = some (ts.get ⟨j + 1, by omega⟩) :=
                List.get?_eq_get (by omega)
              have hadj : keyLt t.key_range.right
                  (ts.get ⟨j + 1, by omega⟩).key_range.left := by
                have := List.chain'_iff_get.mp hno j (by omega)
                have hjg : ts.get ⟨j, by omega⟩ = t := by
                  have := @List.get?_eq_get _ ts j (by omega)
                  rw [this] at hj
                  exact Option.some_inj.mp hj
                rw [hjg] at this
                exact this
              -- left boundaries ascend from j+1 to the chosen index
              have hasc2 : keyLe (ts.get ⟨j + 1, by omega⟩).key_range.left
                  tn.key_range.left := by
                have hmj1 : (ts.map fun t2 => t2.key_range.left).get? (j + 1) =
                    some (ts.get ⟨j + 1, by omega⟩).key_range.left := by
                  rw [List.get?_map, hj1]; rfl
                have hmn : (ts.map fun t2 => t2.key_range.left).get?
                    (ConcatIteratorInner.seekTableIdx .Forward ts k) =
                    some tn.key_range.left := by
                  rw [List.get?_map, hgn]; rfl
                exact chain_rel_of_get keyLe_transitive keyLe_reflexive hasc
                  (by omega) hmj1 hmn
              -- entries of t are below its right boundary
              have hbt := (hb t (List.get?_mem hj) e he).2
              exact keyLt_of_le_of_lt hbt
                (keyLt_of_lt_of_le hadj (keyLe.trans hasc2 hleftn))
        · -- fall through to the next table, which starts past the seek key
          have hst2 : ((ConcatIteratorInner.new ts).seek_idx
              (ConcatIteratorInner.seekTableIdx .Forward ts k) (some k)).seek_idx
              (ConcatIteratorInner.seekTableIdx .Forward ts k + 1) none =
              { ((ConcatIteratorInner.new ts).seek_idx
                  (ConcatIteratorInner.seekTableIdx .Forward ts k) (some k)) with
                sstable_iter := some ⟨tn2.entries, 0, tn2.cost⟩,
                cur_idx := ConcatIteratorInner.seekTableIdx .Forward ts k + 1,
                stats := 0 + tn.cost } := by
            rw [hst1]
            simp only [ConcatIteratorInner.seek_idx, hgn2, ConcatIteratorInner.drained,
              SstableIterator.create, SstableIterator.rewind]
          have htn2ne := hne tn2 (List.get?_mem hgn2)
          have htn2len : 0 < tn2.entries.length := List.length_pos.mpr htn2ne
          have hn2len : ConcatIteratorInner.seekTableIdx .Forward ts k + 1 < ts.length := by
            by_contra hcon
            push_neg at hcon
            rw [List.get?_eq_none.mpr hcon] at hgn2
            cases hgn2
          -- pLeft is false at the fallback index
          have hpfalse : pLeft k tn2 = false := by
            rcases Nat.eq_zero_or_pos (partitionPoint (pLeft k) ts) with hpz | hpp
            · -- no table's left boundary is ≤ k, so in particular not this one
              have h0len : 0 < ts.length := by omega
              obtain ⟨x0, hx0, hpx0⟩ := partitionPoint_get_self_false (pLeft k) ts
                (by omega)
              rw [hpz] at hx0
              rcases hq : pLeft k tn2 with _ | _
              · rfl
              · exfalso
                have := hmono 0 (ConcatIteratorInner.seekTableIdx .Forward ts k + 1)
                  x0 tn2 (by omega) hx0 hgn2 hq
                rw [this] at hpx0
                cases hpx0
            · -- the fallback index is exactly the partition point
              have hidx : ConcatIteratorInner.seekTableIdx .Forward ts k + 1 =
                  partitionPoint (pLeft k) ts := by
                rw [hnpp]; omega
              obtain ⟨x, hx, hpx⟩ := partitionPoint_get_self_false (pLeft k) ts
                (by omega)
              rw [← hidx] at hx
              rw [hgn2] at hx
              cases hx
              exact hpx
          have hklt : keyLt k tn2.key_range.left := by
            refine not_keyLe ?_
            intro hle
            rw [(pLeft_iff k tn2).mpr hle] at hpfalse
            cases hpfalse
          constructor
          · intro kk h
            rw [hst2] at h
            simp only [ConcatIteratorInner.key?, SstableIterator.key?] at h
            rcases hg : tn2.entries.get? 0 with _ | e0
            · rw [hg] at h; cases h
            · rw [hg] at h
              cases h
              have hbe := (hb tn2 (List.get?_mem hgn2) e0 (List.get?_mem hg)).1
              exact keyLt.le (keyLt_of_lt_of_le hklt hbe)
          · intro hvf
            rw [hst2] at hvf
            simp only [ConcatIteratorInner.is_valid, SstableIterator.is_valid] at hvf
            have := of_decide_eq_false hvf
            omega

/-- The seek key of the `C7` witness: strictly between `k003` and `k004`
("seek into a hole" at an SST boundary). -/
def kMid : EncodedKey := withEpoch [107, 48, 48, 51, 53] 1

/-- Witness for `forward_seek_contract`: seeking between `k003` and `k004`
exhausts SST A below the key, and both the merge over the two entry streams
and the concat over the two-SST run surface `k004 ≥ kMid`. -/
theorem forward_seek_contract_witness :
    (∀ e ∈ (SstableIterator.create sstA).entries, keyLt e.1 kMid) ∧
    keyLe kMid k004 ∧
    ((ConcatIteratorInner.new [sstA, sstB]).seek kMid).key? = some k004 := by
  refine ⟨(forward_seek_contract.1 (SstableIterator.create sstA) kMid).2 (by decide),
    ?_, rfl⟩
  exact (forward_seek_contract.2.2 [sstA, sstB] kMid (by decide) (by decide)
    (List.chain'_pair.mpr (by decide)) (List.chain'_pair.mpr (by decide))).1 k004 rfl



/-! ### Heap-top characterization -/

theorem heapTop?_get {cmp : Node → Node → Ordering} :
    ∀ {l : List Node} {i : Nat} {n : Node}, heapTop? cmp l = some (i, n) →
      l.get? i = some n := by
  intro l
  induction l with
  | nil => intro i n h; cases h
  | cons m rest ih =>
    intro i n h
    simp only [heapTop?] at h
    rcases htop : heapTop? cmp rest with _ | ⟨j, nd⟩ <;> simp only [htop] at h
    · cases h; rfl
    · by_cases hc : (cmp nd m == .gt) = true
      · rw [if_pos hc] at h
        cases h
        exact ih htop
      · rw [if_neg hc] at h
        cases h
        rfl

theorem ordering_beq_gt {o : Ordering} (h : (o == Ordering.gt) = true) : o = .gt := by
  rcases o
  · exact absurd h (by decide)
  · exact absurd h (by decide)
  · rfl

theorem ordering_beq_gt_of_eq {o : Ordering} (h : o = .gt) : (o == Ordering.gt) = true := by
  rw [h]; decide

theorem cmp_refl_of_swap {cmp : Node → Node → Ordering}
    (hswap : ∀ a b, cmp a b = (cmp b a).swap) (a : Node) : cmp a a = .eq := by
  have h := hswap a a
  rcases hc : cmp a a
  · rw [hc] at h; exact absurd h (by decide)
  · rfl
  · rw [hc] at h; exact absurd h (by decide)

/-- The element `heapTop?` returns is maximal under `cmp` (for a `cmp` that is
swap-antisymmetric and whose `≠ .gt` relation is transitive). -/
theorem heapTop?_max {cmp : Node → Node → Ordering}
    (hswap : ∀ a b, cmp a b = (cmp b a).swap)
    (htrans : ∀ a b c, cmp a b ≠ .gt → cmp b c ≠ .gt → cmp a c ≠ .gt) :
    ∀ {l : List Node} {i : Nat} {n : Node}, heapTop? cmp l = some (i, n) →
      ∀ m ∈ l, cmp m n ≠ .gt := by
  intro l
  induction l with
  | nil => intro i n h; cases h
  | cons a rest ih =>
    intro i n h m hm
    simp only [heapTop?] at h
    rcases htop : heapTop? cmp rest with _ | ⟨j, nd⟩ <;> simp only [htop] at h
    · cases h
      have : rest = [] := heapTop?_eq_none htop
      subst this
      rcases List.mem_singleton.mp hm with rfl
      rw [cmp_refl_of_swap hswap]; decide
    · by_cases hc : (cmp nd a == .gt) = true
      · rw [if_pos hc] at h
        cases h
        rcases List.mem_cons.mp hm with rfl | hm2
        · rw [hswap, ordering_beq_gt hc]; decide
        · exact ih htop m hm2
      · rw [if_neg hc] at h
        cases h
        rcases List.mem_cons.mp hm with rfl | hm2
        · rw [cmp_refl_of_swap hswap]; decide
        · exact htrans m nd a (ih htop m hm2) (fun hg => hc (ordering_beq_gt_of_eq hg))

/-! ### The ordered node comparator -/

theorem natCompare_swap (a b : Nat) : compare a b = (compare b a).swap := by
  rcases hc : compare b a
  · show compare a b = Ordering.gt
    rw [Nat.compare_eq_gt]; exact Nat.compare_eq_lt.mp hc
  · show compare a b = Ordering.eq
    rw [Nat.compare_eq_eq]; exact (Nat.compare_eq_eq.mp hc).symm
  · show compare a b = Ordering.lt
    rw [Nat.compare_eq_lt]; exact Nat.compare_eq_gt.mp hc

theorem then_swap (o1 o2 : Ordering) : (o1.then o2).swap = o1.swap.then o2.swap := by
  rcases o1 <;> rcases o2 <;> rfl

theorem then_ne_gt {o1 o2 : Ordering} :
    (o1.then o2) ≠ .gt ↔ o1 = .lt ∨ (o1 = .eq ∧ o2 ≠ .gt) := by
  rcases o1 <;> rcases o2 <;> decide

theorem ordered_cmp_swap (dir : DirectionEnum) (a b : Node) :
    ordered_cmp dir a b = (ordered_cmp dir b a).swap := by
  rcases dir
  · show (compare_key b.key a.key).then (compare b.order a.order) =
      ((compare_key a.key b.key).then (compare a.order b.order)).swap
    rw [then_swap, ← compare_key_swap, ← natCompare_swap]
  · show (compare_key a.key b.key).then (compare a.order b.order) =
      ((compare_key b.key a.key).then (compare b.order a.order)).swap
    rw [then_swap, ← compare_key_swap, ← natCompare_swap]

/-- `ordered_cmp .Forward a b ≠ .gt` (heap order `a ≤ b`) means `b` is before
`a` in the lexicographic (key, order) sense. -/
theorem ordered_forward_ne_gt {a b : Node} :
    ordered_cmp .Forward a b ≠ .gt ↔
      keyLt b.key a.key ∨ (b.key = a.key ∧ b.order ≤ a.order) := by
  simp only [ordered_cmp, then_ne_gt, keyLt, compare_key_eq_iff]
  constructor
  · rintro (h | ⟨h1, h2⟩)
    · exact Or.inl h
    · exact Or.inr ⟨h1, by
        rw [Ne, Nat.compare_eq_gt] at h2
        omega⟩
  · rintro (h | ⟨h1, h2⟩)
    · exact Or.inl h
    · exact Or.inr ⟨h1, by
        rw [Ne, Nat.compare_eq_gt]
        omega⟩

theorem ordered_forward_trans (a b c : Node)
    (h1 : ordered_cmp .Forward a b ≠ .gt) (h2 : ordered_cmp .Forward b c ≠ .gt) :
    ordered_cmp .Forward a c ≠ .gt := by
  rw [ordered_forward_ne_gt] at h1 h2 ⊢
  rcases h1 with h1 | ⟨h1, ho1⟩ <;> rcases h2 with h2 | ⟨h2, ho2⟩
  · exact Or.inl (keyLt_trans h2 h1)
  · rw [h2]; exact Or.inl h1
  · rw [← h1]; exact Or.inl h2
  · exact Or.inr ⟨h2.trans h1, Nat.le_trans ho2 ho1⟩

theorem keyLe_antisymm {a b : EncodedKey} (h1 : keyLe a b) (h2 : keyLe b a) : a = b := by
  rcases keyLe_iff.mp h1 with h | rfl
  · rcases keyLe_iff.mp h2 with h' | rfl
    · exact absurd h' (keyLt_asymm h)
    · rfl
  · rfl

/-! ### Measure bookkeeping for the dedup loop -/

theorem sum_map_set (f : Node → Nat) :
    ∀ (l : List Node) (i : Nat) (x y : Node), l.get? i = some y →
      ((l.set i x).map f).sum + f y = (l.map f).sum + f x := by
  intro l
  induction l with
  | nil => intro i x y h; cases h
  | cons a rest ih =>
    intro i x y h
    cases i with
    | zero =>
      cases h
      simp only [List.set, List.map, List.sum_cons]
      omega
    | succ j =>
      simp only [List.set, List.map, List.sum_cons]
      have := ih j x y h
      omega

theorem sum_map_eraseIdx (f : Node → Nat) :
    ∀ (l : List Node) (i : Nat) (y : Node), l.get? i = some y →
      ((l.eraseIdx i).map f).sum + f y = (l.map f).sum := by
  intro l
  induction l with
  | nil => intro i y h; cases h
  | cons a rest ih =>
    intro i y h
    cases i with
    | zero =>
      cases h
      simp only [List.eraseIdx, List.map, List.sum_cons]
      omega
    | succ j =>
      simp only [List.eraseIdx, List.map, List.sum_cons]
      have := ih j y h
      omega

theorem heapMeasure_eq_zero {heap : List Node}
    (h : MergeIteratorInner.heapMeasure heap = 0) : heap = [] := by
  cases heap with
  | nil => rfl
  | cons a rest =>
    exfalso
    simp only [MergeIteratorInner.heapMeasure, List.map, List.sum_cons] at h
    omega

/-! ### Node stepping -/

theorem node_next_ok {n : Node} (hfail : n.failAt = none) :
    n.next = .ok { n with pos := n.pos + 1 } := by
  simp [Node.next, hfail]

theorem node_key_get {n : Node} (hp : n.pos < n.entries.length) :
    n.key = (n.entries.map Prod.fst).get ⟨n.pos, by simpa using hp⟩ := by
  simp only [Node.key, List.get?_eq_get hp, Option.map_some', Option.getD_some]
  rw [List.get_map]

theorem node_key?_eq {n : Node} (hv : n.valid = true) : n.key? = some n.key := by
  have hp : n.pos < n.entries.length := by
    simpa [Node.valid] using hv
  simp only [Node.key?, Node.key, List.get?_eq_get hp, Option.map_some', Option.getD_some]

theorem node_key_of_key? {n : Node} {k : EncodedKey} (h : n.key? = some k) :
    n.key = k := by
  simp only [Node.key, Node.key?] at h ⊢
  rw [h]
  rfl

/-- Advancing a strictly sorted child strictly increases its key. -/
theorem node_next_key_lt {n : Node}
    (hs : (n.entries.map Prod.fst).Chain' keyLt)
    (hv : n.valid = true)
    (hv2 : Node.valid { n with pos := n.pos + 1 } = true) :
    keyLt n.key (Node.key { n with pos := n.pos + 1 }) := by
  have hp : n.pos < n.entries.length := by simpa [Node.valid] using hv
  have hp2 : n.pos + 1 < n.entries.length := by simpa [Node.valid] using hv2
  have hlen : (n.entries.map Prod.fst).length = n.entries.length := by simp
  have hadj := List.chain'_iff_get.mp hs n.pos (by omega)
  rw [node_key_get hp]
  have : Node.key { n with pos := n.pos + 1 } =
      (n.entries.map Prod.fst).get ⟨n.pos + 1, by omega⟩ := by
    have := @node_key_get { n with pos := n.pos + 1 } hp2
    simpa using this
  rw [this]
  exact hadj

/-! ### The ordered dedup loop -/

theorem orderedLoop_forward_spec :
    ∀ (fuel : Nat) (st : MergeIteratorInner) (tk : List Byte),
      MergeIteratorInner.heapMeasure st.heap ≤ fuel →
      (∀ m ∈ st.heap, (m.entries.map Prod.fst).Chain' keyLt ∧ m.valid = true ∧
        m.failAt = none ∧ keyLe tk m.key) →
      (MergeIteratorInner.orderedLoop .Forward fuel st tk).1 = .ok () ∧
      (MergeIteratorInner.orderedLoop .Forward fuel st tk).2.last_table_key =
        st.last_table_key ∧
      (∀ m ∈ (MergeIteratorInner.orderedLoop .Forward fuel st tk).2.heap,
        m.valid = true ∧ keyLt tk m.key) ∧
      (∀ m ∈ (MergeIteratorInner.orderedLoop .Forward fuel st tk).2.unused_iters,
        m ∈ st.unused_iters ∨ m.valid = false) := by
  intro fuel
  induction fuel with
  | zero =>
    intro st tk hfuel hinv
    have hheap : st.heap = [] := heapMeasure_eq_zero (Nat.le_zero.mp hfuel)
    refine ⟨rfl, rfl, ?_, fun m hm => Or.inl hm⟩
    intro m hm
    have hm2 : m ∈ st.heap := hm
    rw [hheap] at hm2
    cases hm2
  | succ fuel ih =>
    intro st tk hfuel hinv
    rcases htop : heapTop? (ordered_cmp .Forward) st.heap with _ | ⟨i, node⟩
    · have hheap : st.heap = [] := heapTop?_eq_none htop
      have hres : MergeIteratorInner.orderedLoop .Forward (fuel + 1) st tk =
          (.ok (), st) := by
        simp only [MergeIteratorInner.orderedLoop, htop]
      rw [hres]
      refine ⟨rfl, rfl, ?_, fun m hm => Or.inl hm⟩
      intro m hm
      rw [hheap] at hm
      cases hm
    · have hnodemem : node ∈ st.heap := heapTop?_mem htop
      have hnodeget : st.heap.get? i = some node := heapTop?_get htop
      obtain ⟨hsort, hvalid, hfail, hle⟩ := hinv node hnodemem
      by_cases hk : (node.key == tk) = true
      · -- the top still carries the deduplicated key: advance it
        have hkeq : node.key = tk := beq_iff_eq.mp hk
        have hnext := node_next_ok hfail
        have hpos : node.pos < node.entries.length := by
          simpa [Node.valid] using hvalid
        by_cases hv2 : Node.valid { node with pos := node.pos + 1 } = true
        · -- child still valid: the heap slot is overwritten in place
          have hres : MergeIteratorInner.orderedLoop .Forward (fuel + 1) st tk =
              MergeIteratorInner.orderedLoop .Forward fuel
                { st with heap := st.heap.set i { node with pos := node.pos + 1 } }
                tk := by
            simp only [MergeIteratorInner.orderedLoop, htop, hnext]
            rw [if_pos hk, if_pos hv2]
          rw [hres]
          have hmeas : MergeIteratorInner.heapMeasure
              (st.heap.set i { node with pos := node.pos + 1 }) ≤ fuel := by
            have hsum := sum_map_set (fun n => n.entries.length - n.pos + 1)
              st.heap i { node with pos := node.pos + 1 } node hnodeget
            simp only [MergeIteratorInner.heapMeasure] at hfuel ⊢
            simp only at hsum
            omega
          have hinv2 : ∀ m ∈ st.heap.set i { node with pos := node.pos + 1 },
              (m.entries.map Prod.fst).Chain' keyLt ∧ m.valid = true ∧
              m.failAt = none ∧ keyLe tk m.key := by
            intro m hm
            rcases List.mem_or_eq_of_mem_set hm with hm2 | rfl
            · exact hinv m hm2
            · refine ⟨hsort, hv2, hfail, ?_⟩
              have := node_next_key_lt hsort hvalid hv2
              rw [hkeq] at this
              exact this.le
          exact ih { st with heap := st.heap.set i { node with pos := node.pos + 1 } }
            tk hmeas hinv2
        · -- child exhausted: pop it to the unused list
          have hres : MergeIteratorInner.orderedLoop .Forward (fuel + 1) st tk =
              MergeIteratorInner.orderedLoop .Forward fuel
                { st with heap := st.heap.eraseIdx i
                          unused_iters := st.unused_iters ++
                            [{ node with pos := node.pos + 1 }] } tk := by
            simp only [MergeIteratorInner.orderedLoop, htop, hnext]
            rw [if_pos hk, if_neg hv2]
          rw [hres]
          have hmeas : MergeIteratorInner.heapMeasure (st.heap.eraseIdx i) ≤ fuel := by
            have hsum := sum_map_eraseIdx (fun n => n.entries.length - n.pos + 1)
              st.heap i node hnodeget
            simp only [MergeIteratorInner.heapMeasure] at hfuel ⊢
            simp only at hsum
            omega
          have hinv2 : ∀ m ∈ st.heap.eraseIdx i,
              (m.entries.map Prod.fst).Chain' keyLt ∧ m.valid = true ∧
              m.failAt = none ∧ keyLe tk m.key :=
            fun m hm => hinv m (List.mem_of_mem_eraseIdx hm)
          obtain ⟨hok, hlast, hheap, hunused⟩ :=
            ih { st with heap := st.heap.eraseIdx i
                         unused_iters := st.unused_iters ++
                           [{ node with pos := node.pos + 1 }] } tk hmeas hinv2
          refine ⟨hok, hlast, hheap, ?_⟩
          intro m hm
          rcases hunused m hm with hm2 | hm2
          · rcases List.mem_append.mp hm2 with hm3 | hm3
            · exact Or.inl hm3
            · rcases List.mem_singleton.mp hm3 with rfl
              exact Or.inr (by simpa using hv2)
          · exact Or.inr hm2
      · -- the top moved past the deduplicated key: stop
        have hres : MergeIteratorInner.orderedLoop .Forward (fuel + 1) st tk =
            (.ok (), st) := by
          simp only [MergeIteratorInner.orderedLoop, htop]
          rw [if_neg hk]
        rw [hres]
        refine ⟨rfl, rfl, ?_, fun m hm => Or.inl hm⟩
        intro m hm
        obtain ⟨_, hmvalid, _, hmle⟩ := hinv m hm
        refine ⟨hmvalid, ?_⟩
        have hne : m.key ≠ tk := by
          intro hmk
          have hmax := heapTop?_max (ordered_cmp_swap .Forward) ordered_forward_trans
            htop m hm
          have hnm : keyLe node.key m.key := by
            rcases ordered_forward_ne_gt.mp hmax with h | ⟨h, _⟩
            · exact h.le
            · rw [h]; exact keyLe.refl _
          rw [hmk] at hnm
          exact hk (beq_iff_eq.mpr (keyLe_antisymm hnm hle))
        rcases keyLe_iff.mp hmle with h | h
        · exact h
        · exact absurd h.symm hne


/-! ### C2: the ordered merge deduplicates by encoded key -/

def cxOrdEntries0 : List (EncodedKey × HValue) :=
  [(withEpoch [1] 1, .put [10]), (withEpoch [2] 1, .put [11])]

def cxOrdEntries1 : List (EncodedKey × HValue) :=
  [(withEpoch [1] 1, .put [20]), (withEpoch [3] 1, .put [21])]

def cxOrdKids : List (List (EncodedKey × HValue) × Option Nat × Nat) :=
  [(cxOrdEntries0, none, 0), (cxOrdEntries1, none, 0)]

def cxOrdSt : MergeIteratorInner := (MergeIteratorInner.newOrdered cxOrdKids).rewind

def cxOrdNode : Node := ⟨cxOrdEntries0, 0, 0, none, 0⟩

def cxOrdNode1 : Node := ⟨cxOrdEntries1, 0, 1, none, 0⟩

/-- C2: for the ordered merge iterator, ties on equal keys break by the
`extra_order_info` index (smaller wins forward, larger wins backward); the
heap top — whose key and value the iterator reports — has the minimal key and,
among equal keys, the minimal order index (forward); and `next` records the
top's key into `last_table_key` and advances every child positioned on that
key (moving the exhausted ones to `unused_iters`), so that every node left in
the heap, and in particular the next reported key, is strictly greater than
the recorded key: at most one entry is emitted per distinct encoded key. -/
theorem ordered_merge_next_dedup (st : MergeIteratorInner) (i : Nat) (node : Node) :
    (∀ a b : Node, a.key = b.key →
      ((ordered_cmp .Forward a b = .gt ↔ a.order < b.order) ∧
       (ordered_cmp .Backward a b = .gt ↔ b.order < a.order))) ∧
    (heapTop? (ordered_cmp .Forward) st.heap = some (i, node) →
      st.key? (ordered_cmp .Forward) = node.key? ∧
      st.value? (ordered_cmp .Forward) = node.value? ∧
      ∀ m ∈ st.heap, keyLe node.key m.key ∧ (node.key = m.key → node.order ≤ m.order)) ∧
    (heapTop? (ordered_cmp .Forward) st.heap = some (i, node) →
      (∀ m ∈ st.heap, (m.entries.map Prod.fst).Chain' keyLt ∧ m.valid = true ∧
        m.failAt = none) →
      (MergeIteratorInner.nextOrdered .Forward st).1 = .ok () ∧
      (MergeIteratorInner.nextOrdered .Forward st).2.last_table_key = node.key ∧
      (∀ m ∈ (MergeIteratorInner.nextOrdered .Forward st).2.heap,
        keyLt node.key m.key) ∧
      (∀ k2, (MergeIteratorInner.nextOrdered .Forward st).2.key?
        (ordered_cmp .Forward) = some k2 → keyLt node.key k2) ∧
      (∀ m ∈ (MergeIteratorInner.nextOrdered .Forward st).2.unused_iters,
        m ∈ st.unused_iters ∨ m.valid = false)) := by
  refine ⟨?_, ?_, ?_⟩
  · intro a b hab
    constructor
    · show (compare_key b.key a.key).then (compare b.order a.order) = .gt ↔ _
      rw [compare_key_eq_iff.mpr hab.symm]
      show compare b.order a.order = .gt ↔ _
      exact Nat.compare_eq_gt
    · show (compare_key a.key b.key).then (compare a.order b.order) = .gt ↔ _
      rw [compare_key_eq_iff.mpr hab]
      show compare a.order b.order = .gt ↔ _
      exact Nat.compare_eq_gt
  · intro htop
    refine ⟨?_, ?_, ?_⟩
    · simp only [MergeIteratorInner.key?, htop]
    · simp only [MergeIteratorInner.value?, htop]
    · intro m hm
      have hmax := heapTop?_max (ordered_cmp_swap .Forward) ordered_forward_trans
        htop m hm
      rcases ordered_forward_ne_gt.mp hmax with h | ⟨h1, h2⟩
      · exact ⟨h.le, fun he => absurd (he ▸ h) (keyLt_irrefl _)⟩
      · exact ⟨by rw [h1]; exact keyLe.refl _, fun _ => h2⟩
  · intro htop hgood
    have hmaxle : ∀ m ∈ st.heap, keyLe node.key m.key := by
      intro m hm
      have hmax := heapTop?_max (ordered_cmp_swap .Forward) ordered_forward_trans
        htop m hm
      rcases ordered_forward_ne_gt.mp hmax with h | ⟨h1, _⟩
      · exact h.le
      · rw [h1]; exact keyLe.refl _
    have hres : MergeIteratorInner.nextOrdered .Forward st =
        MergeIteratorInner.orderedLoop .Forward (MergeIteratorInner.heapMeasure st.heap)
          { st with last_table_key := node.key } node.key := by
      simp only [MergeIteratorInner.nextOrdered, htop]
    have hinv : ∀ m ∈ ({ st with last_table_key := node.key } :
        MergeIteratorInner).heap,
        (m.entries.map Prod.fst).Chain' keyLt ∧ m.valid = true ∧
        m.failAt = none ∧ keyLe node.key m.key := by
      intro m hm
      obtain ⟨h1, h2, h3⟩ := hgood m hm
      exact ⟨h1, h2, h3, hmaxle m hm⟩
    obtain ⟨hok, hlast, hheap, hunused⟩ :=
      orderedLoop_forward_spec (MergeIteratorInner.heapMeasure st.heap)
        { st with last_table_key := node.key } node.key (Nat.le_refl _) hinv
    rw [hres]
    refine ⟨hok, hlast, fun m hm => (hheap m hm).2, ?_, hunused⟩
    intro k2 hk2
    rcases htop2 : heapTop? (ordered_cmp .Forward)
        (MergeIteratorInner.orderedLoop .Forward
          (MergeIteratorInner.heapMeasure st.heap)
          { st with last_table_key := node.key } node.key).2.heap with _ | ⟨j, m2⟩
    · simp only [MergeIteratorInner.key?, htop2] at hk2
      cases hk2
    · simp only [MergeIteratorInner.key?, htop2] at hk2
      have hm2 := heapTop?_mem htop2
      rw [← node_key_of_key? hk2]
      exact (hheap m2 hm2).2

/-- Witness for C2: two ordered children that both start at key `[1]`; the
top is the order-0 child, `next` records that key, and every heap survivor is
strictly past it. -/
theorem ordered_merge_next_dedup_witness :
    heapTop? (ordered_cmp .Forward) cxOrdSt.heap = some (0, cxOrdNode) ∧
    (MergeIteratorInner.nextOrdered .Forward cxOrdSt).1 = .ok () ∧
    (MergeIteratorInner.nextOrdered .Forward cxOrdSt).2.last_table_key =
      withEpoch [1] 1 ∧
    (∀ m ∈ (MergeIteratorInner.nextOrdered .Forward cxOrdSt).2.heap,
      keyLt cxOrdNode.key m.key) := by
  have hgood : ∀ m ∈ cxOrdSt.heap, (m.entries.map Prod.fst).Chain' keyLt ∧
      m.valid = true ∧ m.failAt = none := by
    intro m hm
    have he : cxOrdSt.heap = [cxOrdNode, cxOrdNode1] := rfl
    rw [he] at hm
    rcases List.mem_cons.mp hm with rfl | hm
    · exact ⟨List.chain'_pair.mpr (by decide), rfl, rfl⟩
    · rcases List.mem_cons.mp hm with rfl | hm
      · exact ⟨List.chain'_pair.mpr (by decide), rfl, rfl⟩
      · cases hm
  obtain ⟨h1, h2, h3, _, _⟩ :=
    (ordered_merge_next_dedup cxOrdSt 0 cxOrdNode).2.2 rfl hgood
  exact ⟨rfl, h1, h2, h3⟩



/-! ### The unordered node comparator -/

theorem unordered_cmp_swap (dir : DirectionEnum) (a b : Node) :
    unordered_cmp dir a b = (unordered_cmp dir b a).swap := by
  rcases dir
  · show compare_key b.key a.key = (compare_key a.key b.key).swap
    exact compare_key_swap b.key a.key
  · show compare_key a.key b.key = (compare_key b.key a.key).swap
    exact compare_key_swap a.key b.key

theorem unordered_forward_ne_gt {a b : Node} :
    unordered_cmp .Forward a b ≠ .gt ↔ keyLe b.key a.key := Iff.rfl

theorem unordered_forward_trans (a b c : Node)
    (h1 : unordered_cmp .Forward a b ≠ .gt) (h2 : unordered_cmp .Forward b c ≠ .gt) :
    unordered_cmp .Forward a c ≠ .gt :=
  unordered_forward_ne_gt.mpr
    ((unordered_forward_ne_gt.mp h2).trans (unordered_forward_ne_gt.mp h1))

/-! ### Remaining keys of a merge heap -/

/-- The multiset (as a list) of keys the heap's children have not yet
emitted: each node contributes the suffix of its key stream from its current
position. -/
def remainingKeys (st : MergeIteratorInner) : List EncodedKey :=
  (st.heap.map fun n => (n.entries.map Prod.fst).drop n.pos).flatten

theorem flatten_set_perm {α β : Type} (g : β → List α) :
    ∀ (l : List β) (i : Nat) (n n2 : β) (x : α), l.get? i = some n →
      g n = x :: g n2 →
      ((l.map g).flatten).Perm (x :: ((l.set i n2).map g).flatten) := by
  intro l
  induction l with
  | nil => intro i n n2 x h; cases h
  | cons a rest ih =>
    intro i n n2 x h hg
    cases i with
    | zero =>
      cases h
      simp only [List.set, List.map_cons, List.flatten_cons, hg, List.cons_append]
      exact List.Perm.refl _
    | succ j =>
      simp only [List.set, List.map_cons, List.flatten_cons]
      exact ((ih j n n2 x h hg).append_left (g a)).trans List.perm_middle

theorem flatten_erase_perm {α β : Type} (g : β → List α) :
    ∀ (l : List β) (i : Nat) (n : β) (x : α), l.get? i = some n →
      g n = [x] →
      ((l.map g).flatten).Perm (x :: ((l.eraseIdx i).map g).flatten) := by
  intro l
  induction l with
  | nil => intro i n x h; cases h
  | cons a rest ih =>
    intro i n x h hg
    cases i with
    | zero =>
      cases h
      simp only [List.eraseIdx, List.map_cons, List.flatten_cons, hg,
        List.singleton_append]
      exact List.Perm.refl _
    | succ j =>
      simp only [List.eraseIdx, List.map_cons, List.flatten_cons]
      exact ((ih j n x h hg).append_left (g a)).trans List.perm_middle

/-- A valid node's remaining keys start with its current key. -/
theorem node_remaining_cons {n : Node} (hv : n.valid = true) :
    (n.entries.map Prod.fst).drop n.pos =
      n.key :: (n.entries.map Prod.fst).drop (n.pos + 1) := by
  have hp : n.pos < n.entries.length := by simpa [Node.valid] using hv
  have hp2 : n.pos < (n.entries.map Prod.fst).length := by simpa using hp
  rw [List.drop_eq_getElem_cons hp2, node_key_get hp]
  rfl

/-- A node on its last entry has exactly one remaining key. -/
theorem node_remaining_last {n : Node} (hv : n.valid = true)
    (hv2 : Node.valid { n with pos := n.pos + 1 } = false) :
    (n.entries.map Prod.fst).drop n.pos = [n.key] := by
  have hp : n.pos < n.entries.length := by simpa [Node.valid] using hv
  have hp2 : n.entries.length ≤ n.pos + 1 := by
    have := hv2
    simp only [Node.valid, decide_eq_false_iff_not, Nat.not_lt] at this
    exact this
  rw [node_remaining_cons hv, List.drop_eq_nil_of_le (by simpa using hp2)]

/-- All remaining keys of a sorted node are at least its current key. -/
theorem node_remaining_ge {n : Node} (hs : (n.entries.map Prod.fst).Chain' keyLe)
    (hv : n.valid = true) :
    ∀ k ∈ (n.entries.map Prod.fst).drop n.pos, keyLe n.key k := by
  intro k hk
  have hp : n.pos < n.entries.length := by simpa [Node.valid] using hv
  have hp2 : n.pos < (n.entries.map Prod.fst).length := by simpa using hp
  obtain ⟨j, hj⟩ := List.mem_iff_get?.mp hk
  rw [List.get?_drop] at hj
  rw [node_key_get hp]
  exact chain_rel_of_get keyLe_transitive keyLe_reflexive hs
    (Nat.le_add_right n.pos j) (List.get?_eq_get hp2) hj

/-- The heap top's key is a lower bound for every remaining key. -/
theorem top_min_remaining {st : MergeIteratorInner} {i : Nat} {node : Node}
    (htop : heapTop? (unordered_cmp .Forward) st.heap = some (i, node))
    (hinv : ∀ m ∈ st.heap, (m.entries.map Prod.fst).Chain' keyLe ∧
      m.valid = true ∧ m.failAt = none) :
    ∀ k ∈ remainingKeys st, keyLe node.key k := by
  intro k hk
  obtain ⟨s, hs, hks⟩ := List.mem_flatten.mp hk
  obtain ⟨m, hm, rfl⟩ := List.mem_map.mp hs
  obtain ⟨hmsort, hmvalid, _⟩ := hinv m hm
  have h1 : keyLe node.key m.key :=
    unordered_forward_ne_gt.mp
      (heapTop?_max (unordered_cmp_swap .Forward) unordered_forward_trans htop m hm)
  exact h1.trans (node_remaining_ge hmsort hmvalid k hks)

/-! ### The unordered emission -/

theorem emit_unordered_spec :
    ∀ (fuel : Nat) (st : MergeIteratorInner),
      (∀ m ∈ st.heap, (m.entries.map Prod.fst).Chain' keyLe ∧ m.valid = true ∧
        m.failAt = none) →
      (remainingKeys st).length ≤ fuel →
      (MergeIteratorInner.emitUnordered .Forward st fuel).Perm (remainingKeys st) ∧
      (MergeIteratorInner.emitUnordered .Forward st fuel).Chain' keyLe := by
  intro fuel
  induction fuel with
  | zero =>
    intro st hinv hfuel
    have hrem : remainingKeys st = [] :=
      List.length_eq_zero.mp (Nat.le_zero.mp hfuel)
    rw [hrem]
    exact ⟨List.Perm.nil, List.chain'_nil⟩
  | succ fuel ih =>
    intro st hinv hfuel
    rcases htop : heapTop? (unordered_cmp .Forward) st.heap with _ | ⟨i, node⟩
    · have hheap : st.heap = [] := heapTop?_eq_none htop
      have hrem : remainingKeys st = [] := by
        simp [remainingKeys, hheap]
      have hres : MergeIteratorInner.emitUnordered .Forward st (fuel + 1) = [] := by
        simp only [MergeIteratorInner.emitUnordered, MergeIteratorInner.key?, htop]
      rw [hres, hrem]
      exact ⟨List.Perm.nil, List.chain'_nil⟩
    · have hnodemem : node ∈ st.heap := heapTop?_mem htop
      have hnodeget : st.heap.get? i = some node := heapTop?_get htop
      obtain ⟨hsort, hvalid, hfail⟩ := hinv node hnodemem
      have hnext := node_next_ok hfail
      have hkey : MergeIteratorInner.key? (unordered_cmp .Forward) st = some node.key := by
        simp only [MergeIteratorInner.key?, htop]
        exact node_key?_eq hvalid
      by_cases hv2 : Node.valid { node with pos := node.pos + 1 } = true
      · -- the advanced child stays in the heap
        have hstep : (MergeIteratorInner.nextUnordered .Forward st).2 =
            { st with heap := st.heap.set i { node with pos := node.pos + 1 } } := by
          simp only [MergeIteratorInner.nextUnordered, htop, hnext]
          rw [if_pos hv2]
        have hres : MergeIteratorInner.emitUnordered .Forward st (fuel + 1) =
            node.key :: MergeIteratorInner.emitUnordered .Forward
              { st with heap := st.heap.set i { node with pos := node.pos + 1 } }
              fuel := by
          simp only [MergeIteratorInner.emitUnordered, hkey, hstep]
        have hperm1 : (remainingKeys st).Perm (node.key :: remainingKeys
            { st with heap := st.heap.set i { node with pos := node.pos + 1 } }) :=
          flatten_set_perm _ st.heap i node { node with pos := node.pos + 1 }
            node.key hnodeget (node_remaining_cons hvalid)
        have hinv2 : ∀ m ∈ st.heap.set i { node with pos := node.pos + 1 },
            (m.entries.map Prod.fst).Chain' keyLe ∧ m.valid = true ∧
            m.failAt = none := by
          intro m hm
          rcases List.mem_or_eq_of_mem_set hm with hm2 | rfl
          · exact hinv m hm2
          · exact ⟨hsort, hv2, hfail⟩
        have hfuel2 : (remainingKeys { st with
            heap := st.heap.set i { node with pos := node.pos + 1 } }).length ≤ fuel := by
          have := hperm1.length_eq
          simp only [List.length_cons] at this
          omega
        obtain ⟨hpermT, hchainT⟩ := ih _ hinv2 hfuel2
        rw [hres]
        refine ⟨((hpermT.cons node.key).trans hperm1.symm :), ?_⟩
        rw [List.chain'_cons']
        refine ⟨?_, hchainT⟩
        intro b hb
        have hbmem : b ∈ remainingKeys st := by
          refine hperm1.symm.subset ?_
          exact List.mem_cons_of_mem _ (hpermT.subset (List.mem_of_mem_head? hb))
        exact top_min_remaining htop hinv b hbmem
      · -- the advanced child is exhausted and moves to the unused list
        have hstep : (MergeIteratorInner.nextUnordered .Forward st).2 =
            { st with heap := st.heap.eraseIdx i
                      unused_iters := st.unused_iters ++
                        [{ node with pos := node.pos + 1 }] } := by
          simp only [MergeIteratorInner.nextUnordered, htop, hnext]
          rw [if_neg hv2]
        have hres : MergeIteratorInner.emitUnordered .Forward st (fuel + 1) =
            node.key :: MergeIteratorInner.emitUnordered .Forward
              { st with heap := st.heap.eraseIdx i
                        unused_iters := st.unused_iters ++
                          [{ node with pos := node.pos + 1 }] } fuel := by
          simp only [MergeIteratorInner.emitUnordered, hkey, hstep]
        have hperm1 : (remainingKeys st).Perm (node.key :: remainingKeys
            { st with heap := st.heap.eraseIdx i
                      unused_iters := st.unused_iters ++
                        [{ node with pos := node.pos + 1 }] }) :=
          flatten_erase_perm _ st.heap i node node.key hnodeget
            (node_remaining_last hvalid (Bool.eq_false_iff.mpr hv2))
        have hinv2 : ∀ m ∈ st.heap.eraseIdx i,
            (m.entries.map Prod.fst).Chain' keyLe ∧ m.valid = true ∧
            m.failAt = none :=
          fun m hm => hinv m (List.mem_of_mem_eraseIdx hm)
        have hfuel2 : (remainingKeys
            { st with heap := st.heap.eraseIdx i
                      unused_iters := st.unused_iters ++
                        [{ node with pos := node.pos + 1 }] }).length ≤ fuel := by
          have := hperm1.length_eq
          simp only [List.length_cons] at this
          omega
        obtain ⟨hpermT, hchainT⟩ := ih _ hinv2 hfuel2
        rw [hres]
        refine ⟨((hpermT.cons node.key).trans hperm1.symm :), ?_⟩
        rw [List.chain'_cons']
        refine ⟨?_, hchainT⟩
        intro b hb
        have hbmem : b ∈ remainingKeys st := by
          refine hperm1.symm.subset ?_
          exact List.mem_cons_of_mem _ (hpermT.subset (List.mem_of_mem_head? hb))
        exact top_min_remaining htop hinv b hbmem

/-! ### Initialization from `rewind` -/

theorem st0_heap_eq (cs : List (List (EncodedKey × HValue))) :
    ((MergeIteratorInner.newUnordered (cs.map fun c => (c, none, 0))).rewind).heap
      = (cs.map fun c => (⟨c, 0, 0, none, 0⟩ : Node)).filter Node.valid := by
  simp only [MergeIteratorInner.newUnordered, MergeIteratorInner.rewind,
    MergeIteratorInner.reset_heap, MergeIteratorInner.build_heap, List.append_nil,
    List.map_map]
  rfl

theorem st0_inv (cs : List (List (EncodedKey × HValue)))
    (hsorted : ∀ c ∈ cs, (c.map Prod.fst).Chain' keyLe) :
    ∀ m ∈ ((MergeIteratorInner.newUnordered (cs.map fun c => (c, none, 0))).rewind).heap,
      (m.entries.map Prod.fst).Chain' keyLe ∧ m.valid = true ∧ m.failAt = none := by
  intro m hm
  rw [st0_heap_eq] at hm
  have hv := List.of_mem_filter hm
  have hm2 := List.mem_of_mem_filter hm
  obtain ⟨c, hc, rfl⟩ := List.mem_map.mp hm2
  exact ⟨hsorted c hc, hv, rfl⟩

theorem remainingKeys_init (cs : List (List (EncodedKey × HValue))) :
    remainingKeys ((MergeIteratorInner.newUnordered
        (cs.map fun c => (c, none, 0))).rewind)
      = (cs.map fun c => c.map Prod.fst).flatten := by
  unfold remainingKeys
  rw [st0_heap_eq]
  induction cs with
  | nil => rfl
  | cons c cs ih =>
    cases c with
    | nil =>
      simp only [List.map_cons, List.filter_cons]
      rw [show Node.valid (⟨[], 0, 0, none, 0⟩ : Node) = false from rfl]
      simpa using ih
    | cons e es =>
      simp only [List.map_cons, List.filter_cons]
      rw [show Node.valid (⟨e :: es, 0, 0, none, 0⟩ : Node) = true from by
        simp [Node.valid]]
      simp only [if_true, List.map_cons, List.flatten_cons, List.drop_zero, ih]

theorem remainingKeys_init_length (cs : List (List (EncodedKey × HValue))) :
    ((cs.map fun c => c.map Prod.fst).flatten).length = (cs.map List.length).sum := by
  rw [List.length_flatten, List.map_map]
  congr 1
  simp [Function.comp]

theorem chain_keyLt_of_le_nodup {l : List EncodedKey} (hle : l.Chain' keyLe)
    (hnd : l.Nodup) : l.Chain' keyLt := by
  rw [List.chain'_iff_get] at hle ⊢
  intro i hi
  have h1 := hle i hi
  have hne : l.get ⟨i, by omega⟩ ≠ l.get ⟨i + 1, by omega⟩ :=
    List.pairwise_iff_get.mp hnd ⟨i, by omega⟩ ⟨i + 1, by omega⟩
      (Fin.mk_lt_mk.mpr (Nat.lt_succ_self i))
  rcases keyLe_iff.mp h1 with h | h
  · exact h
  · exact absurd h hne

/-! ### C6: the unordered merge emits the sorted multiset union -/

def cxUEntries0 : List (EncodedKey × HValue) :=
  [(withEpoch [1] 1, .put [10]), (withEpoch [3] 1, .put [11])]

def cxUEntries1 : List (EncodedKey × HValue) :=
  [(withEpoch [2] 1, .put [20]), (withEpoch [3] 2, .put [21])]

def cxUKids : List (List (EncodedKey × HValue)) := [cxUEntries0, cxUEntries1]

/-- C6: over children whose key streams are sorted under the versioned
comparator, driving the unordered merge from `rewind` with enough fuel emits
a permutation of the concatenated key multisets (the multiset union) that is
sorted: consecutive emitted keys satisfy `compare(a, b) < 0` or equal; when
no key occurs twice across the children the emitted chain is strict, so
equality between neighbours can only come from duplicated input keys. -/
theorem unordered_merge_sorted_union (cs : List (List (EncodedKey × HValue)))
    (fuel : Nat)
    (hsorted : ∀ c ∈ cs, (c.map Prod.fst).Chain' keyLe)
    (hfuel : (cs.map List.length).sum ≤ fuel) :
    (MergeIteratorInner.emitUnordered .Forward
        ((MergeIteratorInner.newUnordered (cs.map fun c => (c, none, 0))).rewind)
        fuel).Perm ((cs.map fun c => c.map Prod.fst).flatten) ∧
    (MergeIteratorInner.emitUnordered .Forward
        ((MergeIteratorInner.newUnordered (cs.map fun c => (c, none, 0))).rewind)
        fuel).Chain' keyLe ∧
    (((cs.map fun c => c.map Prod.fst).flatten).Nodup →
      (MergeIteratorInner.emitUnordered .Forward
        ((MergeIteratorInner.newUnordered (cs.map fun c => (c, none, 0))).rewind)
        fuel).Chain' keyLt) := by
  have hlen : (remainingKeys ((MergeIteratorInner.newUnordered
      (cs.map fun c => (c, none, 0))).rewind)).length ≤ fuel := by
    rw [remainingKeys_init, remainingKeys_init_length]
    exact hfuel
  obtain ⟨hperm, hchain⟩ := emit_unordered_spec fuel _ (st0_inv cs hsorted) hlen
  rw [remainingKeys_init] at hperm
  exact ⟨hperm, hchain, fun hnd =>
    chain_keyLt_of_le_nodup hchain (hperm.nodup_iff.mpr hnd)⟩

/-- Witness for C6: two sorted two-entry children with pairwise distinct
encoded keys; the full run is a sorted (here even strictly sorted)
permutation of all four keys. -/
theorem unordered_merge_sorted_union_witness :
    (MergeIteratorInner.emitUnordered .Forward
        ((MergeIteratorInner.newUnordered (cxUKids.map fun c => (c, none, 0))).rewind)
        4).Perm ((cxUKids.map fun c => c.map Prod.fst).flatten) ∧
    (MergeIteratorInner.emitUnordered .Forward
        ((MergeIteratorInner.newUnordered (cxUKids.map fun c => (c, none, 0))).rewind)
        4).Chain' keyLt := by
  have hsorted : ∀ c ∈ cxUKids, (c.map Prod.fst).Chain' keyLe := by
    intro c hc
    rcases List.mem_cons.mp hc with rfl | hc
    · exact show List.Chain' keyLe [withEpoch [1] 1, withEpoch [3] 1] from
        List.chain'_pair.mpr (by decide)
    · rcases List.mem_cons.mp hc with rfl | hc
      · exact show List.Chain' keyLe [withEpoch [2] 1, withEpoch [3] 2] from
          List.chain'_pair.mpr (by decide)
      · cases hc
  obtain ⟨h1, _, h3⟩ := unordered_merge_sorted_union cxUKids 4 hsorted (by decide)
  exact ⟨h1, h3 (by decide)⟩

end RW
